import Mathlib

/-!
Verification of the jirardeau JIRA client library (src/jirardeau.go).

The development shallowly embeds the parts of the library that the claims
concern: the JSON wire format produced and consumed by the Go standard
library encoding machinery (restricted to the fragment the library
exercises: null, booleans, integers, strings, arrays, objects), the custom
ModifyIssueFields.MarshalJSON byte splice, the custom
IssueFields.UnmarshalJSON two-pass decode, the HTTP status classification
of the transport, and the URL construction of GetIssues, GetIssue and
UpdateIssue.
-/

/-- JSON values in the fragment exchanged by the library.  Numbers are
integers: the library only ever encodes Go int fields and the claims only
exercise integer literals, so floating point is outside the model. -/
inductive Json where
  | null
  | bool (b : Bool)
  | num (n : Int)
  | str (s : String)
  | arr (elems : List Json)
  | obj (members : List (String × Json))

/-- Decimal digit character, as produced by the Go integer formatter. -/
def digitChar (d : Nat) : Char := Char.ofNat (48 + d)

/-- Lowercase hexadecimal digit character, as used by the escape sequences
emitted by encoding/json. -/
def hexChar (d : Nat) : Char :=
  if d < 10 then Char.ofNat (48 + d) else Char.ofNat (87 + d)

/-- Decimal digits of a natural number, most significant first.  Fuel-based
so that the definition is structurally recursive and kernel-reducible. -/
def natDigitsAux : Nat → Nat → List Char
  | 0, _ => []
  | fuel + 1, n => if n < 10 then [digitChar n] else natDigitsAux fuel (n / 10) ++ [digitChar (n % 10)]

def natDigits (n : Nat) : List Char := natDigitsAux (n + 1) n

/-- Decimal rendering of an integer, as produced by encoding/json for Go
int values. -/
def intChars (n : Int) : List Char :=
  if n < 0 then '-' :: natDigits (-n).toNat else natDigits n.toNat

/-- Escape of one character inside a JSON string literal, mirroring the Go
encoding/json string encoder with its default HTML escaping: quote and
backslash get two-character escapes, newline, carriage return and tab get
their short escapes, the HTML-active characters and the remaining control
characters are written as lowercase \u escapes, everything else is emitted
verbatim. -/
def escapeChar (c : Char) : List Char :=
  if c = '"' then ['\\', '"']
  else if c = '\\' then ['\\', '\\']
  else if c = '\n' then ['\\', 'n']
  else if c = '\r' then ['\\', 'r']
  else if c = '\t' then ['\\', 't']
  else if c = '<' then ['\\', 'u', '0', '0', '3', 'c']
  else if c = '>' then ['\\', 'u', '0', '0', '3', 'e']
  else if c = '&' then ['\\', 'u', '0', '0', '2', '6']
  else if c.toNat < 32 then ['\\', 'u', '0', '0', hexChar (c.toNat / 16), hexChar (c.toNat % 16)]
  else if c.toNat = 8232 then ['\\', 'u', '2', '0', '2', '8']
  else if c.toNat = 8233 then ['\\', 'u', '2', '0', '2', '9']
  else [c]

def escapeChars : List Char → List Char
  | [] => []
  | c :: cs => escapeChar c ++ escapeChars cs

/-- Serialization of a JSON string literal including the quotes. -/
def serString (s : String) : List Char := '"' :: (escapeChars s.data ++ ['"'])

mutual

/-- Compact serialization of a JSON value, as produced by encoding/json
(json.Marshal emits no whitespace). -/
def serJson : Json → List Char
  | Json.null => ['n', 'u', 'l', 'l']
  | Json.bool true => ['t', 'r', 'u', 'e']
  | Json.bool false => ['f', 'a', 'l', 's', 'e']
  | Json.num n => intChars n
  | Json.str s => serString s
  | Json.arr [] => ['[', ']']
  | Json.arr (v :: vs) => '[' :: (serJson v ++ serATail vs)
  | Json.obj [] => ['{', '}']
  | Json.obj (m :: ms) => '{' :: (serMember m ++ serOTail ms)

def serMember : String × Json → List Char
  | (k, v) => serString k ++ ':' :: serJson v

def serATail : List Json → List Char
  | [] => [']']
  | v :: vs => ',' :: (serJson v ++ serATail vs)

def serOTail : List (String × Json) → List Char
  | [] => ['}']
  | m :: ms => ',' :: (serMember m ++ serOTail ms)

end

/-- JSON whitespace as accepted by the scanner of encoding/json. -/
def isWs (c : Char) : Bool := c = ' ' || c = '\t' || c = '\n' || c = '\r'

def skipWs (l : List Char) : List Char := l.dropWhile isWs

/-- Decimal digit test, the code point range of 0 through 9. -/
def isDigitChar (c : Char) : Bool := 48 ≤ c.toNat && c.toNat ≤ 57

/-- The input does not begin with a decimal digit: the delimiter condition
under which a serialized number is read back unchanged. -/
def noDigitHead (l : List Char) : Prop := ∀ c, l.head? = some c → isDigitChar c = false

/-- Value of one hexadecimal digit character. -/
def hexVal (c : Char) : Option Nat :=
  if 48 ≤ c.toNat ∧ c.toNat ≤ 57 then some (c.toNat - 48)
  else if 97 ≤ c.toNat ∧ c.toNat ≤ 102 then some (c.toNat - 87)
  else if 65 ≤ c.toNat ∧ c.toNat ≤ 70 then some (c.toNat - 55)
  else none

/-- Resolution of a short escape sequence. -/
def unescapeChar (c : Char) : Option Char :=
  if c = '"' then some '"'
  else if c = '\\' then some '\\'
  else if c = '/' then some '/'
  else if c = 'b' then some (Char.ofNat 8)
  else if c = 'f' then some (Char.ofNat 12)
  else if c = 'n' then some '\n'
  else if c = 'r' then some '\r'
  else if c = 't' then some '\t'
  else none

/-- Character denoted by a \u escape.  A value that is not a Unicode
scalar (an unpaired surrogate half) becomes U+FFFD, the replacement
character used by the Go decoder. -/
def uChar (n : Nat) : Char :=
  if Nat.isValidChar n then Char.ofNat n else Char.ofNat 65533

/-- Resolution of a four-digit \u escape given the continuation of the
string parse. -/
def parseU (h1 h2 h3 h4 : Char) (k : Option (List Char × List Char)) :
    Option (List Char × List Char) :=
  match hexVal h1, hexVal h2, hexVal h3, hexVal h4 with
  | some a, some b, some c3, some d =>
    k.map (fun p => (uChar (((a * 16 + b) * 16 + c3) * 16 + d) :: p.1, p.2))
  | _, _, _, _ => none

/-- Parser for the body of a JSON string literal, positioned just after
the opening quote.  Returns the decoded characters and the input remaining
after the closing quote.  Unescaped control characters are rejected, as in
the Go scanner. -/
def parseStringBody : List Char → Option (List Char × List Char)
  | [] => none
  | c :: rest =>
    if c = '"' then some ([], rest)
    else if c = '\\' then
      match rest with
      | 'u' :: h1 :: h2 :: h3 :: h4 :: rest2 => parseU h1 h2 h3 h4 (parseStringBody rest2)
      | e :: rest2 =>
        match unescapeChar e with
        | some ec => (parseStringBody rest2).map (fun p => (ec :: p.1, p.2))
        | none => none
      | [] => none
    else if c.toNat < 32 then none
    else (parseStringBody rest).map (fun p => (c :: p.1, p.2))

def digitsVal (l : List Char) : Nat := l.foldl (fun a c => a * 10 + (c.toNat - 48)) 0

/-- Parser for an unsigned decimal integer literal.  Leading zeros are
rejected, as in the JSON grammar. -/
def parseNat (l : List Char) : Option (Nat × List Char) :=
  match l.takeWhile (fun c => isDigitChar c) with
  | [] => none
  | d :: ds2 => if d = '0' ∧ ds2 ≠ [] then none else some (digitsVal (d :: ds2), l.drop (ds2.length + 1))

mutual

/-- Recursive descent parser for a JSON value, fuel-indexed so that the
definition is structurally recursive and kernel-reducible.  Mirrors the
syntax accepted by the encoding/json scanner on the integer fragment. -/
def parseValue : Nat → List Char → Option (Json × List Char)
  | 0, _ => none
  | fuel + 1, l =>
    match skipWs l with
    | 'n' :: 'u' :: 'l' :: 'l' :: r => some (Json.null, r)
    | 't' :: 'r' :: 'u' :: 'e' :: r => some (Json.bool true, r)
    | 'f' :: 'a' :: 'l' :: 's' :: 'e' :: r => some (Json.bool false, r)
    | '"' :: r => (parseStringBody r).map (fun p => (Json.str (String.mk p.1), p.2))
    | '[' :: r =>
      (match skipWs r with
      | ']' :: r2 => some (Json.arr [], r2)
      | _ =>
        match parseValue fuel r with
        | some (v, r1) =>
          (match parseATail fuel r1 with
          | some (vs, r2) => some (Json.arr (v :: vs), r2)
          | none => none)
        | none => none)
    | '{' :: r =>
      (match skipWs r with
      | '}' :: r2 => some (Json.obj [], r2)
      | _ =>
        match parseMember fuel r with
        | some (m, r1) =>
          (match parseOTail fuel r1 with
          | some (ms, r2) => some (Json.obj (m :: ms), r2)
          | none => none)
        | none => none)
    | '-' :: r =>
      (match parseNat r with
      | some (n, r2) => some (Json.num (-(n : Int)), r2)
      | none => none)
    | c :: r =>
      if isDigitChar c then
        match parseNat (c :: r) with
        | some (n, r2) => some (Json.num (n : Int), r2)
        | none => none
      else none
    | [] => none

/-- Parser for one object member: key string, colon, value. -/
def parseMember : Nat → List Char → Option ((String × Json) × List Char)
  | 0, _ => none
  | fuel + 1, l =>
    match skipWs l with
    | '"' :: r =>
      (match parseStringBody r with
      | some (k, r1) =>
        (match skipWs r1 with
        | ':' :: r2 =>
          (match parseValue fuel r2 with
          | some (v, r3) => some ((String.mk k, v), r3)
          | none => none)
        | _ => none)
      | none => none)
    | _ => none

/-- Parser for the continuation of an array after one element: either the
closing bracket or a comma followed by an element.  A comma immediately
followed by the closing bracket is a syntax error, as in encoding/json. -/
def parseATail : Nat → List Char → Option (List Json × List Char)
  | 0, _ => none
  | fuel + 1, l =>
    match skipWs l with
    | ']' :: r => some ([], r)
    | ',' :: r =>
      (match parseValue fuel r with
      | some (v, r1) =>
        (match parseATail fuel r1 with
        | some (vs, r2) => some (v :: vs, r2)
        | none => none)
      | none => none)
    | _ => none

/-- Parser for the continuation of an object after one member. -/
def parseOTail : Nat → List Char → Option (List (String × Json) × List Char)
  | 0, _ => none
  | fuel + 1, l =>
    match skipWs l with
    | '}' :: r => some ([], r)
    | ',' :: r =>
      (match parseMember fuel r with
      | some (m, r1) =>
        (match parseOTail fuel r1 with
        | some (ms, r2) => some (m :: ms, r2)
        | none => none)
      | none => none)
    | _ => none

end

/-- Top level JSON parse: one value followed only by whitespace, the
acceptance condition of json.Unmarshal. -/
def parseJson (l : List Char) : Option Json :=
  match parseValue (l.length + 1) l with
  | some (v, r) => if skipWs r = [] then some v else none
  | none => none

/-! ## Data model of the library (src/jirardeau.go) -/

/-- Project (src/jirardeau.go lines 80-85): four string fields, each tagged
omitempty with keys id, self, key, name. -/
structure Project where
  id : String
  self : String
  key : String
  name : String
deriving DecidableEq

/-- IssueType (lines 131-137): keys id, self, name, subtask, description,
none omitempty. -/
structure IssueType where
  id : String
  self : String
  name : String
  subTask : Bool
  description : String
deriving DecidableEq

/-- FixVersion (lines 89-102).  projectId is a Go int.  The Fields member
is tagged with a dash and never appears on the wire. -/
structure FixVersion where
  archived : Bool
  id : String
  name : String
  overdue : Bool
  projectId : Int
  releaseDate : String
  released : Bool
  self : String
  startDate : String
  userReleaseDate : String
  userStartDate : String
  fields : String
deriving DecidableEq

/-- CustomField (line 128) is a Go map from field key to string value; it
is modelled as an association list with pairwise distinct keys. -/
abbrev CustomField := List (String × String)

/-- ModifyIssueFields (lines 187-194).  Pointer fields become Option, the
slice of FixVersion pointers becomes a list of options, CustomFields is
tagged with a dash and handled only by the custom marshaller. -/
structure ModifyIssueFields where
  project : Option Project
  summary : String
  issueType : Option IssueType
  fixVersions : List (Option FixVersion)
  description : String
  customFields : CustomField

/-- Status (lines 168-173): keys id, self, name, description. -/
structure Status where
  id : String
  self : String
  name : String
  description : String
deriving DecidableEq

/-- Author (lines 159-165). -/
structure Author where
  self : String
  active : Bool
  name : String
  displayName : String
  emailAddress : String
deriving DecidableEq

/-- Comment (lines 148-156). -/
structure Comment where
  id : String
  self : String
  author : Author
  updateAuthor : Author
  body : String
  created : String
  updated : String
deriving DecidableEq

/-- CommentField (lines 140-145): three Go int counters and the comment
list. -/
structure CommentField where
  startAt : Int
  maxResults : Int
  total : Int
  comments : List Comment
deriving DecidableEq

/-- IssueFields (lines 115-125), the decode target of UnmarshalJSON.
customFields is an Option so that the Go distinction between a nil map and
an initialized empty map is visible: none models the nil map. -/
structure IssueFields where
  project : Option Project
  summary : String
  issueType : Option IssueType
  fixVersions : List (Option FixVersion)
  status : Status
  created : String
  description : String
  comment : CommentField
  customFields : Option CustomField

def zeroStatus : Status := ⟨"", "", "", ""⟩

def zeroAuthor : Author := ⟨"", false, "", "", ""⟩

def zeroComment : Comment := ⟨"", "", zeroAuthor, zeroAuthor, "", "", ""⟩

def zeroCommentField : CommentField := ⟨0, 0, 0, []⟩

def zeroIssueFields : IssueFields := ⟨none, "", none, [], zeroStatus, "", "", zeroCommentField, none⟩

/-- RequestUpdateIssue (lines 181-184). -/
structure RequestUpdateIssue where
  key : String
  fields : ModifyIssueFields

/-! ## Encode path: ModifyIssueFields.MarshalJSON (lines 395-446) -/

/-- strings.HasPrefix.  The prefixes used by the library are ASCII, for
which the Go byte comparison coincides with character comparison. -/
def goHasPre (pre s : String) : Bool := pre.data.isPrefixOf s.data

/-- Members of the JSON encoding of a Project value: each field is
omitempty, so empty strings are dropped, in declaration order. -/
def serProjectMembers (p : Project) : List (String × Json) :=
  (if p.id = "" then [] else [("id", Json.str p.id)]) ++
  (if p.self = "" then [] else [("self", Json.str p.self)]) ++
  (if p.key = "" then [] else [("key", Json.str p.key)]) ++
  (if p.name = "" then [] else [("name", Json.str p.name)])

def serProject (p : Project) : Json := Json.obj (serProjectMembers p)

def serIssueType (it : IssueType) : Json :=
  Json.obj [("id", Json.str it.id), ("self", Json.str it.self), ("name", Json.str it.name),
    ("subtask", Json.bool it.subTask), ("description", Json.str it.description)]

def serFixVersion (fv : FixVersion) : Json :=
  Json.obj [("archived", Json.bool fv.archived), ("id", Json.str fv.id),
    ("name", Json.str fv.name), ("overdue", Json.bool fv.overdue),
    ("projectId", Json.num fv.projectId), ("releaseDate", Json.str fv.releaseDate),
    ("released", Json.bool fv.released), ("self", Json.str fv.self),
    ("startDate", Json.str fv.startDate), ("userReleaseDate", Json.str fv.userReleaseDate),
    ("userStartDate", Json.str fv.userStartDate)]

/-- A nil FixVersion pointer in the slice is marshalled as JSON null. -/
def serOptFixVersion : Option FixVersion → Json
  | none => Json.null
  | some fv => serFixVersion fv

/-- The project member of the fixed-field encoding: omitted for a nil
pointer. -/
def projectPiece (f : ModifyIssueFields) : List (String × Json) :=
  match f.project with
  | none => []
  | some p => [("project", serProject p)]

/-- The summary member, omitted when empty. -/
def summaryPiece (f : ModifyIssueFields) : List (String × Json) :=
  if f.summary = "" then [] else [("summary", Json.str f.summary)]

/-- The issuetype member, omitted for a nil pointer. -/
def issueTypePiece (f : ModifyIssueFields) : List (String × Json) :=
  match f.issueType with
  | none => []
  | some it => [("issuetype", serIssueType it)]

/-- The fixVersions member, omitted when the slice is empty. -/
def fixVersionsPiece (f : ModifyIssueFields) : List (String × Json) :=
  if f.fixVersions.isEmpty then []
  else [("fixVersions", Json.arr (f.fixVersions.map serOptFixVersion))]

/-- The description member, omitted when empty. -/
def descriptionPiece (f : ModifyIssueFields) : List (String × Json) :=
  if f.description = "" then [] else [("description", Json.str f.description)]

/-- Members of the JSON encoding of the AliasIssueFields struct of
MarshalJSON (lines 413-419): project, summary, issuetype, fixVersions,
description, all omitempty, in declaration order. -/
def fixedFieldMembers (f : ModifyIssueFields) : List (String × Json) :=
  projectPiece f ++ summaryPiece f ++ issueTypePiece f ++ fixVersionsPiece f ++
    descriptionPiece f

/-- Insertion into a key-sorted association list (String order agrees with
the Go byte order used when json.Marshal sorts map keys). -/
def insertByKey {α : Type} (p : String × α) : List (String × α) → List (String × α)
  | [] => [p]
  | q :: qs => if p.1 ≤ q.1 then p :: q :: qs else q :: insertByKey p qs

def sortByKey {α : Type} : List (String × α) → List (String × α)
  | [] => []
  | p :: ps => insertByKey p (sortByKey ps)

/-- The custom-field wrapper map built in lines 396-402: every entry
becomes key - single member object with key value - and json.Marshal
renders the map with its keys sorted. -/
def cfWireMembers (cf : CustomField) : List (String × Json) :=
  (sortByKey cf).map (fun p => (p.1, Json.obj [("value", Json.str p.2)]))

/-- bytes.TrimSuffix. -/
def trimSuf (l suf : List Char) : List Char :=
  if suf.isSuffixOf l then l.take (l.length - suf.length) else l

/-- bytes.TrimPrefix. -/
def trimPre (l pre : List Char) : List Char :=
  if pre.isPrefixOf l then l.drop pre.length else l

/-- ModifyIssueFields.MarshalJSON (lines 395-446): marshal the wrapper map
when non-empty, marshal the fixed-schema alias struct, and when the
wrapper is present splice the two byte strings: drop the closing brace of
the former and the opening brace of the latter and join with a comma. -/
def marshalModifyIssueFields (f : ModifyIssueFields) : List Char :=
  let bytesFields := serJson (Json.obj (fixedFieldMembers f))
  if f.customFields.isEmpty then bytesFields
  else
    trimSuf (serJson (Json.obj (cfWireMembers f.customFields))) ['}'] ++
      ',' :: trimPre bytesFields ['{']

/-! ## Decode path: IssueFields.UnmarshalJSON (lines 449-500) -/

/-- Lookup of an object member; with duplicate keys the last occurrence
wins, the value json.Unmarshal leaves in a Go map or struct field.  For
the typed pass this is exact only on duplicate-free member lists:
json.Unmarshal assigns the last occurrence but keeps the FIRST error
among duplicates, a difference goDecodeFaithful rules out. -/
def jLookup (k : String) (ms : List (String × Json)) : Option Json :=
  List.lookup k ms.reverse

/-- Typed decode of a string-typed struct field: an absent key or JSON
null leaves the zero value, a string is taken, anything else is a type
mismatch. -/
def decStringField (ms : List (String × Json)) (k : String) : Option String :=
  match jLookup k ms with
  | none => some ""
  | some Json.null => some ""
  | some (Json.str s) => some s
  | some _ => none

def decBoolField (ms : List (String × Json)) (k : String) : Option Bool :=
  match jLookup k ms with
  | none => some false
  | some Json.null => some false
  | some (Json.bool b) => some b
  | some _ => none

def decIntField (ms : List (String × Json)) (k : String) : Option Int :=
  match jLookup k ms with
  | none => some 0
  | some Json.null => some 0
  | some (Json.num n) => some n
  | some _ => none

def decProject (ms : List (String × Json)) : Option Project := do
  let id ← decStringField ms "id"
  let self ← decStringField ms "self"
  let key ← decStringField ms "key"
  let name ← decStringField ms "name"
  some ⟨id, self, key, name⟩

def decProjectField (ms : List (String × Json)) : Option (Option Project) :=
  match jLookup "project" ms with
  | none => some none
  | some Json.null => some none
  | some (Json.obj pms) => (decProject pms).map some
  | some _ => none

def decIssueType (ms : List (String × Json)) : Option IssueType := do
  let id ← decStringField ms "id"
  let self ← decStringField ms "self"
  let name ← decStringField ms "name"
  let subTask ← decBoolField ms "subtask"
  let description ← decStringField ms "description"
  some ⟨id, self, name, subTask, description⟩

def decIssueTypeField (ms : List (String × Json)) : Option (Option IssueType) :=
  match jLookup "issuetype" ms with
  | none => some none
  | some Json.null => some none
  | some (Json.obj ims) => (decIssueType ims).map some
  | some _ => none

def decFixVersion (ms : List (String × Json)) : Option FixVersion := do
  let archived ← decBoolField ms "archived"
  let id ← decStringField ms "id"
  let name ← decStringField ms "name"
  let overdue ← decBoolField ms "overdue"
  let projectId ← decIntField ms "projectId"
  let releaseDate ← decStringField ms "releaseDate"
  let released ← decBoolField ms "released"
  let self ← decStringField ms "self"
  let startDate ← decStringField ms "startDate"
  let userReleaseDate ← decStringField ms "userReleaseDate"
  let userStartDate ← decStringField ms "userStartDate"
  some ⟨archived, id, name, overdue, projectId, releaseDate, released, self,
    startDate, userReleaseDate, userStartDate, ""⟩

def decOptFixVersion : Json → Option (Option FixVersion)
  | Json.null => some none
  | Json.obj ms => (decFixVersion ms).map some
  | _ => none

/-- Element-wise decode of a JSON array into a Go slice: the first
mismatching element aborts, as in encoding/json. -/
def decList {α : Type} (g : Json → Option α) : List Json → Option (List α)
  | [] => some []
  | x :: xs =>
    match g x with
    | none => none
    | some y =>
      match decList g xs with
      | none => none
      | some ys => some (y :: ys)

def decFixVersionsField (ms : List (String × Json)) : Option (List (Option FixVersion)) :=
  match jLookup "fixVersions" ms with
  | none => some []
  | some Json.null => some []
  | some (Json.arr xs) => decList decOptFixVersion xs
  | some _ => none

def decStatusField (ms : List (String × Json)) : Option Status :=
  match jLookup "status" ms with
  | none => some zeroStatus
  | some Json.null => some zeroStatus
  | some (Json.obj sms) => do
    let id ← decStringField sms "id"
    let self ← decStringField sms "self"
    let name ← decStringField sms "name"
    let description ← decStringField sms "description"
    some ⟨id, self, name, description⟩
  | some _ => none

def decAuthor (ms : List (String × Json)) : Option Author := do
  let self ← decStringField ms "self"
  let active ← decBoolField ms "active"
  let name ← decStringField ms "name"
  let displayName ← decStringField ms "displayName"
  let emailAddress ← decStringField ms "emailAddress"
  some ⟨self, active, name, displayName, emailAddress⟩

def decAuthorField (ms : List (String × Json)) (k : String) : Option Author :=
  match jLookup k ms with
  | none => some zeroAuthor
  | some Json.null => some zeroAuthor
  | some (Json.obj ams) => decAuthor ams
  | some _ => none

def decComment : Json → Option Comment
  | Json.null => some zeroComment
  | Json.obj ms => do
    let id ← decStringField ms "id"
    let self ← decStringField ms "self"
    let author ← decAuthorField ms "author"
    let updateAuthor ← decAuthorField ms "updateAuthor"
    let body ← decStringField ms "body"
    let created ← decStringField ms "created"
    let updated ← decStringField ms "updated"
    some ⟨id, self, author, updateAuthor, body, created, updated⟩
  | _ => none

def decCommentsField (ms : List (String × Json)) : Option (List Comment) :=
  match jLookup "comments" ms with
  | none => some []
  | some Json.null => some []
  | some (Json.arr xs) => decList decComment xs
  | some _ => none

def decCommentField (ms : List (String × Json)) : Option CommentField :=
  match jLookup "comment" ms with
  | none => some zeroCommentField
  | some Json.null => some zeroCommentField
  | some (Json.obj cms) => do
    let startAt ← decIntField cms "startAt"
    let maxResults ← decIntField cms "maxResults"
    let total ← decIntField cms "total"
    let comments ← decCommentsField cms
    some ⟨startAt, maxResults, total, comments⟩
  | some _ => none

/-- First pass of UnmarshalJSON (lines 450-465): json.Unmarshal of the
whole document into the AliasIssueFields struct.  JSON null is a no-op
leaving the zero struct; a non-object non-null document is a type
mismatch; unknown keys are ignored.  Field resolution here is exact-match
with last-occurrence lookup, while json.Unmarshal also accepts
case-insensitive matches and keeps the first error among duplicate keys:
this decoder is the program's only on documents satisfying
goDecodeFaithful, the hypothesis claim C7 carries. -/
def decodeIssueFieldsTyped : Json → Option IssueFields
  | Json.null => some zeroIssueFields
  | Json.obj ms => do
    let project ← decProjectField ms
    let summary ← decStringField ms "summary"
    let issueType ← decIssueTypeField ms
    let fixVersions ← decFixVersionsField ms
    let status ← decStatusField ms
    let created ← decStringField ms "created"
    let description ← decStringField ms "description"
    let comment ← decCommentField ms
    some ⟨project, summary, issueType, fixVersions, status, created, description, comment, none⟩
  | _ => none

/-- Go map insert: overwrite the entry with the same key, otherwise
append. -/
def mapInsert {α : Type} (acc : List (String × α)) (k : String) (v : α) : List (String × α) :=
  if acc.any (fun p => p.1 = k) then
    acc.map (fun p => if p.1 = k then (k, v) else p)
  else acc ++ [(k, v)]

/-- The member list of a decoded map object: textual duplicates collapse
with the last occurrence winning, as when json.Unmarshal fills a Go map. -/
def dedupLast (ms : List (String × Json)) : List (String × Json) :=
  ms.foldl (fun acc p => mapInsert acc p.1 p.2) []

/-- Second pass of UnmarshalJSON (lines 467-472): json.Unmarshal of the
same document into a generic string-to-value map.  Null leaves the map
empty; only an object can populate it. -/
def mapOfJson : Json → Option (List (String × Json))
  | Json.null => some []
  | Json.obj ms => some (dedupLast ms)
  | _ => none

/-- The inner loop of lines 483-490, as a function of the sequence in
which the loop sees the members: every string-typed member whose key
starts with value overwrites the previous match, so the last match of
the given sequence wins.  The loop ranges over a Go map whose iteration
order is unspecified; order-sensitive statements therefore quantify over
the sequence (claim C6), and the pipeline below instantiates it at
document order as one canonical choice. -/
def scanValueMembers (sub : List (String × Json)) : Option String :=
  sub.foldl
    (fun acc p =>
      if goHasPre "value" p.1 then
        match p.2 with
        | Json.str s => some s
        | _ => acc
      else acc)
    none

/-- The shape dispatch of lines 481-495: an object value is scanned for a
value member, a string is taken directly, null becomes the empty string,
any other shape produces no entry.  The object case instantiates the
scan at the document-order member sequence; the program's winner among
several matching members depends on the unspecified map iteration order,
so only statements insensitive to that choice (single-member wrappers,
mere existence of an entry) are read back to the program. -/
def customValueOf : Json → Option String
  | Json.obj sub => scanValueMembers (dedupLast sub)
  | Json.str s => some s
  | Json.null => some ""
  | _ => none

/-- The outer loop of lines 478-497 over the generic map: keys with the
customfield_ prefix contribute an entry when their value yields one. -/
def extractCustomFields (gm : List (String × Json)) : CustomField :=
  gm.foldl
    (fun acc p =>
      if goHasPre "customfield_" p.1 then
        match customValueOf p.2 with
        | some s => mapInsert acc p.1 s
        | none => acc
      else acc)
    []

/-- Decode errors of UnmarshalJSON, distinguished as in the Go error
messages: a scanner error for malformed input, a type mismatch when
json.Unmarshal cannot fit a value into the target. -/
inductive DecodeErr where
  | syntaxErr
  | typeErr
deriving DecidableEq

/-- IssueFields.UnmarshalJSON (lines 449-500): typed pass, generic pass,
then the custom-field extraction loop; the CustomFields map is always
initialized before the loop. -/
def unmarshalIssueFields (l : List Char) : Except DecodeErr IssueFields :=
  match parseJson l with
  | none => Except.error DecodeErr.syntaxErr
  | some j =>
    match decodeIssueFieldsTyped j with
    | none => Except.error DecodeErr.typeErr
    | some flds =>
      match mapOfJson j with
      | none => Except.error DecodeErr.typeErr
      | some gm =>
        Except.ok ⟨flds.project, flds.summary, flds.issueType, flds.fixVersions,
          flds.status, flds.created, flds.description, flds.comment,
          some (extractCustomFields gm)⟩

/-! ## Transport status classification (request, lines 214-265) -/

/-- The error taxonomy of the status switch in request. -/
inductive JiraError where
  | unauthorized
  | notFound
  | methodNotAllowed
  | unsupportedMediaType
  | badGateway
  | requestFailed (status : Nat) (body : String)
deriving DecidableEq

/-- The status switch of request (lines 226-251): specific codes map to
their dedicated errors, any other code of at least 400 maps to the generic
failure carrying the status and the body text, everything below 400
returns the body. -/
def classifyResponse (status : Nat) (body : String) : Except JiraError String :=
  if status = 401 then Except.error JiraError.unauthorized
  else if status = 404 then Except.error JiraError.notFound
  else if status = 405 then Except.error JiraError.methodNotAllowed
  else if status = 415 then Except.error JiraError.unsupportedMediaType
  else if status = 502 then Except.error JiraError.badGateway
  else if 400 ≤ status then Except.error (JiraError.requestFailed status body)
  else Except.ok body

/-! ## URL construction of the query operations -/

/-- UTF-8 bytes of one character, for the byte-wise percent encoding of
url.Values.Encode. -/
def utf8Bytes (c : Char) : List Nat :=
  let n := c.toNat
  if n < 128 then [n]
  else if n < 2048 then [192 + n / 64, 128 + n % 64]
  else if n < 65536 then [224 + n / 4096, 128 + (n / 64) % 64, 128 + n % 64]
  else [240 + n / 262144, 128 + (n / 4096) % 64, 128 + (n / 64) % 64, 128 + n % 64]

/-- Bytes that url.QueryEscape leaves unescaped: alphanumerics and the
four unreserved marks. -/
def isUnreservedByte (b : Nat) : Bool :=
  (48 ≤ b && b ≤ 57) || (65 ≤ b && b ≤ 90) || (97 ≤ b && b ≤ 122) ||
    b = 45 || b = 95 || b = 46 || b = 126

def hexCharUpper (d : Nat) : Char :=
  if d < 10 then Char.ofNat (48 + d) else Char.ofNat (55 + d)

/-- url.QueryEscape of one byte: space becomes plus, unreserved bytes pass
through, everything else is percent-encoded in uppercase hex. -/
def escapeByteQuery (b : Nat) : List Char :=
  if b = 32 then ['+']
  else if isUnreservedByte b then [Char.ofNat b]
  else ['%', hexCharUpper (b / 16), hexCharUpper (b % 16)]

def queryEscapeChars : List Char → List Char
  | [] => []
  | c :: cs => ((utf8Bytes c).foldr (fun b a => escapeByteQuery b ++ a) []) ++ queryEscapeChars cs

def joinAmp : List (List Char) → List Char
  | [] => []
  | [x] => x
  | x :: xs => x ++ '&' :: joinAmp xs

/-- url.Values.Encode: pairs sorted by key, each rendered as
escaped key, equals sign, escaped value, joined with ampersands. -/
def urlValuesEncode (params : List (String × String)) : String :=
  String.mk (joinAmp ((sortByKey params).map
    (fun p => queryEscapeChars p.1.data ++ '=' :: queryEscapeChars p.2.data)))

/-- The default field list of GetIssues (line 293). -/
def defaultIssuesFields : String :=
  "id,key,self,summary,issuetype,status,description,created,comment"

/-- The jql query built by GetIssues (line 291). -/
def getIssuesJql (project : String) (fixVersionName : String) : String :=
  "project = " ++ project ++ " AND fixVersion = \"" ++ fixVersionName ++ "\""

/-- The query parameters built by GetIssues (lines 290-296). -/
def getIssuesParams (project : String) (fv : FixVersion) : List (String × String) :=
  [("jql", getIssuesJql project fv.name),
   ("fields", if fv.fields = "" then defaultIssuesFields else fv.fields)]

/-- The relative URL of the GetIssues search request (line 298). -/
def getIssuesRelURL (project : String) (fv : FixVersion) : String :=
  "/search?" ++ urlValuesEncode (getIssuesParams project fv)

/-- strings.Join with a comma separator. -/
def joinComma : List String → String
  | [] => ""
  | [x] => x
  | x :: xs => x ++ "," ++ joinComma xs

/-- The expand parameter handling of GetIssue (lines 321-324): the Go
slice may be nil (none) or non-nil (some); the parameter is added exactly
when the slice is non-nil. -/
def getIssueParams (expand : Option (List String)) : List (String × String) :=
  match expand with
  | none => []
  | some xs => [("expand", joinComma xs)]

/-- The relative URL of GetIssue (line 326). -/
def getIssueRelURL (id : String) (expand : Option (List String)) : String :=
  "/issue/" ++ id ++ "?" ++ urlValuesEncode (getIssueParams expand)

/-! ## UpdateIssue (lines 375-391) -/

/-- One HTTP call issued through the transport. -/
structure HttpCall where
  method : String
  relURL : String
  body : Option (List Char)

/-- json.NewEncoder(..).Encode(request): the outer encoder marshals the
key member, then the fields member through MarshalJSON, validating and
compacting the bytes the custom marshaller returns (the library output is
already compact), and appends a newline.  Invalid custom-marshaller output
makes Encode fail. -/
def encodeRequestUpdateIssue (req : RequestUpdateIssue) : Option (List Char) :=
  match parseJson (marshalModifyIssueFields req.fields) with
  | none => none
  | some _ =>
    some ('{' :: (serString "key" ++ ':' :: serJson (Json.str req.key) ++
      ',' :: serString "fields" ++ ':' :: marshalModifyIssueFields req.fields ++ ['}', '\n']))

/-- The transport calls UpdateIssue performs: none when the key is empty
(the validation error returns first) or when encoding fails; otherwise the
single PUT to the issue path. -/
def updateIssueCalls (req : RequestUpdateIssue) : List HttpCall :=
  if req.key = "" then []
  else
    match encodeRequestUpdateIssue req with
    | none => []
    | some body => [⟨"PUT", "/issue/" ++ req.key, some body⟩]

/-- Errors of UpdateIssue: the empty-key validation error (line 377), a
failure of the request encoder (line 380), or a transport failure. -/
inductive UpdateIssueError where
  | validationError
  | encodeError
  | httpError (e : JiraError)
deriving DecidableEq

/-- UpdateIssue (lines 375-391), parametrized by the transport.  The
response body is discarded on success. -/
def updateIssue (transport : HttpCall → Except JiraError String)
    (req : RequestUpdateIssue) : Except UpdateIssueError Unit :=
  if req.key = "" then Except.error UpdateIssueError.validationError
  else
    match encodeRequestUpdateIssue req with
    | none => Except.error UpdateIssueError.encodeError
    | some body =>
      match transport ⟨"PUT", "/issue/" ++ req.key, some body⟩ with
      | Except.ok _ => Except.ok ()
      | Except.error e => Except.error (UpdateIssueError.httpError e)

/-- Pairwise distinct keys: the invariant of an association list that
models a Go map. -/
def keysNodup {α : Type} (l : List (String × α)) : Prop := (l.map Prod.fst).Nodup

/-! ## The documents on which the exact-match typed decode is the program

json.Unmarshal resolves an object key to a struct field preferring an
exact match of the field's tag but also accepting a case-insensitive
match, and among duplicate object keys it keeps the first error while
assigning the last occurrence.  The typed decoders of this file use exact
matching and last-occurrence lookup, so their verdict is the program's
verdict only on documents where neither difference can fire: the
predicates below carve out exactly those documents. -/

/-- ASCII lowercase, the case folding json.Unmarshal applies on ASCII
keys. -/
def asciiLower (c : Char) : Char :=
  if 65 ≤ c.toNat ∧ c.toNat ≤ 90 then Char.ofNat (c.toNat + 32) else c

/-- Pairwise distinct strings, computable. -/
def allDistinct : List String → Bool
  | [] => true
  | k :: ks => (!ks.contains k) && allDistinct ks

/-- A member key that json.Unmarshal resolves exactly as the model does:
either one of the target struct's tag names verbatim, or pure ASCII with
an ASCII case folding colliding with none of them, so the
case-insensitive fallback cannot fire.  The tag names are ASCII; the only
non-ASCII runes whose simple case folding reaches an ASCII letter
(U+017F and U+212A) are excluded along with the rest of non-ASCII. -/
def keyOkFor (schema : List String) (k : String) : Bool :=
  schema.contains k ||
    (k.data.all (fun c => decide (c.toNat < 128)) &&
      schema.all (fun s => !(k.data.map asciiLower == s.data.map asciiLower)))

/-- The json tags of IssueFields (lines 115-125). -/
def issueFieldsKeys : List String :=
  ["project", "summary", "issuetype", "fixVersions", "status", "created",
   "description", "comment"]

/-- The json tags of Project (lines 80-85). -/
def projectKeys : List String := ["id", "self", "key", "name"]

/-- The json tags of IssueType (lines 130-136). -/
def issueTypeKeys : List String := ["id", "self", "name", "subtask", "description"]

/-- The json tags of FixVersion (lines 89-102). -/
def fixVersionKeys : List String :=
  ["archived", "id", "name", "overdue", "projectId", "releaseDate", "released",
   "self", "startDate", "userReleaseDate", "userStartDate"]

/-- The json tags of Status (lines 168-173). -/
def statusKeys : List String := ["id", "self", "name", "description"]

/-- The json tags of CommentField (lines 140-145). -/
def commentFieldKeys : List String := ["startAt", "maxResults", "total", "comments"]

/-- The json tags of Comment (lines 148-156). -/
def commentKeys : List String :=
  ["id", "self", "author", "updateAuthor", "body", "created", "updated"]

/-- The json tags of Author (lines 159-165). -/
def authorKeys : List String := ["self", "active", "name", "displayName", "emailAddress"]

/-- Member list of a struct target on which exact-match last-occurrence
decoding coincides with json.Unmarshal: keys pairwise distinct, none
engaging the case-insensitive fallback. -/
def flatObjOk (schema : List String) (ms : List (String × Json)) : Bool :=
  allDistinct (ms.map Prod.fst) && ms.all (fun p => keyOkFor schema p.1)

/-- The check for a member decoded into a flat struct: only an object has
keys to inspect. -/
def subObjOk (schema : List String) : Json → Bool
  | Json.obj ms => flatObjOk schema ms
  | _ => true

/-- The check below a comment member: the comment object itself and its
two Author sub-objects. -/
def commentOk (j : Json) : Bool :=
  match j with
  | Json.obj ms =>
    flatObjOk commentKeys ms &&
      (match jLookup "author" ms with
       | some a => subObjOk authorKeys a
       | none => true) &&
      (match jLookup "updateAuthor" ms with
       | some a => subObjOk authorKeys a
       | none => true)
  | _ => true

/-- The check below the comment member of IssueFields: the CommentField
object and every element of its comments array. -/
def commentFieldOk (j : Json) : Bool :=
  match j with
  | Json.obj ms =>
    flatObjOk commentFieldKeys ms &&
      (match jLookup "comments" ms with
       | some (Json.arr cs) => cs.all commentOk
       | _ => true)
  | _ => true

/-- The check below the fixVersions member: every object element of the
array. -/
def fixVersionsOk (j : Json) : Bool :=
  match j with
  | Json.arr xs => xs.all (subObjOk fixVersionKeys)
  | _ => true

/-- The documents on which the typed pass of the model provably is the
typed pass of the program: at every position json.Unmarshal matches
against a struct, the keys are pairwise distinct and resolve only by
exact match.  Positions the decoder never inspects (unknown keys, values
of the wrong shape) are unconstrained. -/
def goDecodeFaithful (j : Json) : Bool :=
  match j with
  | Json.obj ms =>
    flatObjOk issueFieldsKeys ms &&
      (match jLookup "project" ms with
       | some v => subObjOk projectKeys v
       | none => true) &&
      (match jLookup "issuetype" ms with
       | some v => subObjOk issueTypeKeys v
       | none => true) &&
      (match jLookup "fixVersions" ms with
       | some v => fixVersionsOk v
       | none => true) &&
      (match jLookup "status" ms with
       | some v => subObjOk statusKeys v
       | none => true) &&
      (match jLookup "comment" ms with
       | some v => commentFieldOk v
       | none => true)
  | _ => true

/-- The custom-field extraction written as one filter over the generic
members, the form the extraction loop computes on a duplicate-free member
list. -/
def specExtract (gm : List (String × Json)) : CustomField :=
  gm.filterMap (fun p =>
    if goHasPre "customfield_" p.1 then (customValueOf p.2).map (fun s => (p.1, s)) else none)

/-! ## Statements written from the words of the specification -/

/-- A member that the inner scan of lines 483-490 accepts: its key starts
with value and its value is a string. -/
def valueStrMember (p : String × Json) : Bool :=
  goHasPre "value" p.1 &&
    match p.2 with
    | Json.str _ => true
    | _ => false

/-- Modelled from the spec sentence of C6: among the members of an object
custom-field value, the first string-typed member whose key starts with
value. -/
def specFirstValueMember (sub : List (String × Json)) : Option String :=
  match sub.find? valueStrMember with
  | some (_, Json.str s) => some s
  | _ => none

/-- The latest string-typed member whose key starts with value, stated
independently of the fold in the code: the first match in the reversed
member list. -/
def specLastValueMember (sub : List (String × Json)) : Option String :=
  match sub.reverse.find? valueStrMember with
  | some (_, Json.str s) => some s
  | _ => none

/-! ## Character and digit lemmas -/

theorem toNat_ofNat_valid {n : Nat} (h : Nat.isValidChar n) : (Char.ofNat n).toNat = n := by
  simp [Char.ofNat, Char.ofNatAux, dif_pos h, Char.toNat, UInt32.toNat]

theorem toNat_isValidChar (c : Char) : Nat.isValidChar c.toNat := c.valid

theorem char_ne_of_toNat_ne {a b : Char} (h : a.toNat ≠ b.toNat) : a ≠ b :=
  fun hab => h (congrArg Char.toNat hab)

theorem digitChar_toNat {d : Nat} (h : d < 10) : (digitChar d).toNat = 48 + d :=
  toNat_ofNat_valid (Or.inl (by omega))

theorem isWs_false_of_toNat {c : Char}
    (h : c.toNat ≠ 32 ∧ c.toNat ≠ 9 ∧ c.toNat ≠ 10 ∧ c.toNat ≠ 13) : isWs c = false := by
  have h1 : c ≠ ' ' := char_ne_of_toNat_ne (by simpa using h.1)
  have h2 : c ≠ '\t' := char_ne_of_toNat_ne (by simpa using h.2.1)
  have h3 : c ≠ '\n' := char_ne_of_toNat_ne (by simpa using h.2.2.1)
  have h4 : c ≠ '\r' := char_ne_of_toNat_ne (by simpa using h.2.2.2)
  simp [isWs, h1, h2, h3, h4]

theorem skipWs_cons_of_not_ws {c : Char} (h : isWs c = false) (l : List Char) :
    skipWs (c :: l) = c :: l := by
  simp [skipWs, List.dropWhile, h]

theorem isDigitChar_digitChar {d : Nat} (h : d < 10) : isDigitChar (digitChar d) = true := by
  simp [isDigitChar, digitChar_toNat h]; omega

theorem isWs_digitChar {d : Nat} (h : d < 10) : isWs (digitChar d) = false :=
  isWs_false_of_toNat (by rw [digitChar_toNat h]; omega)

theorem hexVal_hexChar {d : Nat} (h : d < 16) : hexVal (hexChar d) = some d := by
  by_cases h10 : d < 10
  · have ht : (hexChar d).toNat = 48 + d := by
      simp only [hexChar, if_pos h10]; exact toNat_ofNat_valid (Or.inl (by omega))
    simp [hexVal, ht]; omega
  · have ht : (hexChar d).toNat = 87 + d := by
      simp only [hexChar, if_neg h10]; exact toNat_ofNat_valid (Or.inl (by omega))
    have hc1 : ¬(48 ≤ (hexChar d).toNat ∧ (hexChar d).toNat ≤ 57) := by rw [ht]; omega
    have hc2 : 97 ≤ (hexChar d).toNat ∧ (hexChar d).toNat ≤ 102 := by rw [ht]; omega
    rw [hexVal, if_neg hc1, if_pos hc2, ht]
    congr 1
    omega

theorem uChar_toNat (c : Char) : uChar c.toNat = c := by
  simp [uChar, if_pos (toNat_isValidChar c)]

/-! ## String literal round trip -/

theorem parseStringBody_escapeChar (c : Char) (t : List Char) :
    parseStringBody (escapeChar c ++ t) = (parseStringBody t).map (fun p => (c :: p.1, p.2)) := by
  by_cases h1 : c = '"'
  · subst h1; rw [parseStringBody.eq_def]; rfl
  by_cases h2 : c = '\\'
  · subst h2; rw [parseStringBody.eq_def]; rfl
  by_cases h3 : c = '\n'
  · subst h3; rw [parseStringBody.eq_def]; rfl
  by_cases h4 : c = '\r'
  · subst h4; rw [parseStringBody.eq_def]; rfl
  by_cases h5 : c = '\t'
  · subst h5; rw [parseStringBody.eq_def]; rfl
  by_cases h6 : c = '<'
  · subst h6; rw [parseStringBody.eq_def]; rfl
  by_cases h7 : c = '>'
  · subst h7; rw [parseStringBody.eq_def]; rfl
  by_cases h8 : c = '&'
  · subst h8; rw [parseStringBody.eq_def]; rfl
  by_cases hlt : c.toNat < 32
  · rw [escapeChar, if_neg h1, if_neg h2, if_neg h3, if_neg h4, if_neg h5, if_neg h6,
      if_neg h7, if_neg h8, if_pos hlt]
    have hred : parseStringBody (['\\', 'u', '0', '0', hexChar (c.toNat / 16),
        hexChar (c.toNat % 16)] ++ t) =
        parseU '0' '0' (hexChar (c.toNat / 16)) (hexChar (c.toNat % 16)) (parseStringBody t) := by
      rw [parseStringBody.eq_def]; rfl
    rw [hred, parseU, hexVal_hexChar (by omega), hexVal_hexChar (by omega)]
    show (parseStringBody t).map
        (fun p => (uChar (((0 * 16 + 0) * 16 + c.toNat / 16) * 16 + c.toNat % 16) :: p.1, p.2)) = _
    rw [show ((0 * 16 + 0) * 16 + c.toNat / 16) * 16 + c.toNat % 16 = c.toNat by omega,
      uChar_toNat]
  by_cases h9 : c.toNat = 8232
  · rw [escapeChar, if_neg h1, if_neg h2, if_neg h3, if_neg h4, if_neg h5, if_neg h6,
      if_neg h7, if_neg h8, if_neg hlt, if_pos h9]
    have hred : parseStringBody (['\\', 'u', '2', '0', '2', '8'] ++ t) =
        parseU '2' '0' '2' '8' (parseStringBody t) := by
      rw [parseStringBody.eq_def]; rfl
    rw [hred]
    show (parseStringBody t).map (fun p => (uChar 8232 :: p.1, p.2)) = _
    rw [show uChar 8232 = c from by rw [← h9]; exact uChar_toNat c]
  by_cases h10 : c.toNat = 8233
  · rw [escapeChar, if_neg h1, if_neg h2, if_neg h3, if_neg h4, if_neg h5, if_neg h6,
      if_neg h7, if_neg h8, if_neg hlt, if_neg h9, if_pos h10]
    have hred : parseStringBody (['\\', 'u', '2', '0', '2', '9'] ++ t) =
        parseU '2' '0' '2' '9' (parseStringBody t) := by
      rw [parseStringBody.eq_def]; rfl
    rw [hred]
    show (parseStringBody t).map (fun p => (uChar 8233 :: p.1, p.2)) = _
    rw [show uChar 8233 = c from by rw [← h10]; exact uChar_toNat c]
  · rw [escapeChar, if_neg h1, if_neg h2, if_neg h3, if_neg h4, if_neg h5, if_neg h6,
      if_neg h7, if_neg h8, if_neg hlt, if_neg h9, if_neg h10]
    show parseStringBody (c :: t) = _
    rw [parseStringBody.eq_def]
    show (if c = '"' then some ([], t)
      else if c = '\\' then
        match t with
        | 'u' :: d1 :: d2 :: d3 :: d4 :: rest2 => parseU d1 d2 d3 d4 (parseStringBody rest2)
        | e :: rest2 =>
          match unescapeChar e with
          | some ec => (parseStringBody rest2).map (fun p => (ec :: p.1, p.2))
          | none => none
        | [] => none
      else if c.toNat < 32 then none
      else (parseStringBody t).map (fun p => (c :: p.1, p.2))) = _
    rw [if_neg h1, if_neg h2, if_neg hlt]

theorem parseStringBody_escapeChars (cs : List Char) : ∀ rest : List Char,
    parseStringBody (escapeChars cs ++ ('"' :: rest)) = some (cs, rest) := by
  induction cs with
  | nil =>
    intro rest
    show parseStringBody ('"' :: rest) = some ([], rest)
    rw [parseStringBody.eq_def]
    rfl
  | cons c cs ih =>
    intro rest
    rw [escapeChars, List.append_assoc, parseStringBody_escapeChar, ih]
    rfl

/-! ## Number round trip -/

theorem parseValue_digitHead (fuel : Nat) (c : Char) (r : List Char) (hd : isDigitChar c = true) :
    parseValue (fuel + 1) (c :: r) =
      (match parseNat (c :: r) with
      | some (n, r2) => some (Json.num (n : Int), r2)
      | none => none) := by
  have h1 : c.toNat ≠ 32 ∧ c.toNat ≠ 9 ∧ c.toNat ≠ 10 ∧ c.toNat ≠ 13 := by
    simp [isDigitChar] at hd; omega
  have hws : isWs c = false := isWs_false_of_toNat h1
  rw [parseValue.eq_def]
  dsimp only
  rw [skipWs_cons_of_not_ws hws]
  split
  all_goals
    first
    | (rename_i heq
       exact List.noConfusion heq)
    | (rename_i heq
       injection heq with hc hr
       subst hc
       first
       | exact absurd hd (of_decide_eq_false rfl)
       | (subst hr; rw [if_pos hd]))

theorem takeWhileAppend (p : Char → Bool) (xs ys : List Char) (hx : ∀ x ∈ xs, p x = true)
    (hy : ∀ c, ys.head? = some c → p c = false) : (xs ++ ys).takeWhile p = xs := by
  induction xs with
  | nil =>
    simp only [List.nil_append]
    cases ys with
    | nil => rfl
    | cons c ys2 => simp [List.takeWhile_cons, hy c rfl]
  | cons x xs ih =>
    have hpx := hx x (by simp)
    simp only [List.cons_append, List.takeWhile_cons, hpx, if_true]
    rw [ih (fun a ha => hx a (by simp [ha]))]

theorem digitsVal_append (xs : List Char) (d : Char) :
    digitsVal (xs ++ [d]) = 10 * digitsVal xs + (d.toNat - 48) := by
  simp [digitsVal, List.foldl_append]
  omega

theorem natDigitsAux_spec (fuel : Nat) : ∀ n, n < fuel →
    ∃ d t, natDigitsAux fuel n = digitChar d :: t ∧ d < 10 ∧ (d = 0 → n = 0 ∧ t = []) := by
  induction fuel with
  | zero => intro n h; omega
  | succ g ih =>
    intro n h
    by_cases h10 : n < 10
    · exact ⟨n, [], by simp [natDigitsAux, if_pos h10], h10, fun h0 => ⟨h0, rfl⟩⟩
    · obtain ⟨d, t, heq, hd10, hz⟩ := ih (n / 10) (by omega)
      refine ⟨d, t ++ [digitChar (n % 10)], ?_, hd10, ?_⟩
      · simp [natDigitsAux, if_neg h10, heq]
      · intro h0
        obtain ⟨hn0, -⟩ := hz h0
        omega

theorem natDigitsAux_digits (fuel : Nat) : ∀ n, n < fuel →
    ∀ c ∈ natDigitsAux fuel n, isDigitChar c = true := by
  induction fuel with
  | zero => intro n h; omega
  | succ g ih =>
    intro n h c hc
    by_cases h10 : n < 10
    · simp [natDigitsAux, if_pos h10] at hc
      rw [hc]
      exact isDigitChar_digitChar h10
    · simp only [natDigitsAux, if_neg h10, List.mem_append, List.mem_singleton] at hc
      rcases hc with hc | hc
      · exact ih (n / 10) (by omega) c hc
      · rw [hc]
        exact isDigitChar_digitChar (by omega)

theorem natDigitsAux_val (fuel : Nat) : ∀ n, n < fuel →
    digitsVal (natDigitsAux fuel n) = n := by
  induction fuel with
  | zero => intro n h; omega
  | succ g ih =>
    intro n h
    by_cases h10 : n < 10
    · simp [natDigitsAux, if_pos h10, digitsVal, digitChar_toNat h10]
    · rw [natDigitsAux, if_neg h10, digitsVal_append, ih (n / 10) (by omega),
        digitChar_toNat (show n % 10 < 10 by omega)]
      omega

theorem natDigits_spec (n : Nat) :
    ∃ d t, natDigits n = digitChar d :: t ∧ d < 10 ∧ (d = 0 → n = 0 ∧ t = []) :=
  natDigitsAux_spec (n + 1) n (by omega)

theorem natDigits_digits (n : Nat) : ∀ c ∈ natDigits n, isDigitChar c = true :=
  natDigitsAux_digits (n + 1) n (by omega)

theorem natDigits_val (n : Nat) : digitsVal (natDigits n) = n :=
  natDigitsAux_val (n + 1) n (by omega)

theorem parseNat_natDigits (n : Nat) (rest : List Char) (hrest : noDigitHead rest) :
    parseNat (natDigits n ++ rest) = some (n, rest) := by
  obtain ⟨d, t, heq, hd10, hz⟩ := natDigits_spec n
  have htw : (natDigits n ++ rest).takeWhile (fun c => isDigitChar c) = natDigits n :=
    takeWhileAppend _ _ _ (fun x hx => natDigits_digits n x hx) hrest
  rw [parseNat, htw, heq]
  have hcond : ¬(digitChar d = '0' ∧ t ≠ []) := by
    rintro ⟨hdz, htne⟩
    have hdn : (48 : Nat) + d = 48 := by
      have := congrArg Char.toNat hdz
      rwa [digitChar_toNat hd10] at this
    obtain ⟨-, ht⟩ := hz (by omega)
    exact htne ht
  dsimp only
  rw [if_neg hcond]
  have hv : digitsVal (digitChar d :: t) = n := by rw [← heq]; exact natDigits_val n
  have hlen : t.length + 1 = (natDigits n).length := by rw [heq]; simp
  rw [hv]
  congr 1
  rw [hlen, ← heq, List.drop_left]

/-! ## Serializer head facts -/

theorem serJson_head (v : Json) :
    ∃ c t, serJson v = c :: t ∧ isWs c = false ∧ c ≠ ']' ∧ c ≠ '}' := by
  cases v with
  | null => exact ⟨'n', _, rfl, rfl, by decide, by decide⟩
  | bool b =>
    cases b with
    | true => exact ⟨'t', _, rfl, rfl, by decide, by decide⟩
    | false => exact ⟨'f', _, rfl, rfl, by decide, by decide⟩
  | num n =>
    by_cases hn : n < 0
    · exact ⟨'-', _, by rw [show serJson (Json.num n) = intChars n from rfl, intChars, if_pos hn],
        rfl, by decide, by decide⟩
    · obtain ⟨d, t, heq, hd10, -⟩ := natDigits_spec n.toNat
      refine ⟨digitChar d, t,
        by rw [show serJson (Json.num n) = intChars n from rfl, intChars, if_neg hn, heq],
        isWs_digitChar hd10, ?_, ?_⟩
      · exact char_ne_of_toNat_ne (by rw [digitChar_toNat hd10]; simp; omega)
      · exact char_ne_of_toNat_ne (by rw [digitChar_toNat hd10]; simp; omega)
  | str s => exact ⟨'"', _, rfl, rfl, by decide, by decide⟩
  | arr xs =>
    cases xs with
    | nil => exact ⟨'[', _, rfl, rfl, by decide, by decide⟩
    | cons v vs => exact ⟨'[', _, rfl, rfl, by decide, by decide⟩
  | obj ms =>
    cases ms with
    | nil => exact ⟨'{', _, rfl, rfl, by decide, by decide⟩
    | cons m ms => exact ⟨'{', _, rfl, rfl, by decide, by decide⟩

theorem serJson_len_pos (v : Json) : 1 ≤ (serJson v).length := by
  obtain ⟨c, t, heq, -⟩ := serJson_head v
  rw [heq]; simp

theorem noDigitHead_cons (c : Char) (h : isDigitChar c = false) (l : List Char) :
    noDigitHead (c :: l) := by
  intro c2 hc2
  simp at hc2
  rwa [← hc2]

theorem noDigitHead_serATail (vs : List Json) (rest : List Char) :
    noDigitHead (serATail vs ++ rest) := by
  cases vs with
  | nil => exact noDigitHead_cons ']' (by decide) rest
  | cons v vs => exact noDigitHead_cons ',' (by decide) _

theorem noDigitHead_serOTail (ms : List (String × Json)) (rest : List Char) :
    noDigitHead (serOTail ms ++ rest) := by
  cases ms with
  | nil => exact noDigitHead_cons '}' (by decide) rest
  | cons m ms => exact noDigitHead_cons ',' (by decide) _

theorem noDigitHead_nil : noDigitHead [] := by
  intro c hc
  simp at hc

/-- Dispatch of the array branch of parseValue when the input after the
opening bracket starts with a character that is not whitespace and not the
closing bracket. -/
theorem parseValue_bracket (g : Nat) (r : List Char) (c : Char) (t : List Char)
    (hr : r = c :: t) (hws : isWs c = false) (hnb : c ≠ ']') :
    parseValue (g + 1) ('[' :: r) =
      (match parseValue g r with
      | some (v, r1) =>
        (match parseATail g r1 with
        | some (vs, r2) => some (Json.arr (v :: vs), r2)
        | none => none)
      | none => none) := by
  subst hr
  have hred : parseValue (g + 1) ('[' :: (c :: t)) =
      (match skipWs (c :: t) with
      | ']' :: r2 => some (Json.arr [], r2)
      | _ =>
        match parseValue g (c :: t) with
        | some (v, r1) =>
          (match parseATail g r1 with
          | some (vs, r2) => some (Json.arr (v :: vs), r2)
          | none => none)
        | none => none) := rfl
  rw [hred, skipWs_cons_of_not_ws hws]
  split
  · rename_i heq
    injection heq with hc hr2
    exact absurd hc hnb
  · rfl

/-! ## Round trip of the serializer through the parser -/

theorem parse_ser_round (fuel : Nat) :
    (∀ v rest, noDigitHead rest → (serJson v ++ rest).length < fuel →
      parseValue fuel (serJson v ++ rest) = some (v, rest)) ∧
    (∀ k v rest, noDigitHead rest → (serMember (k, v) ++ rest).length < fuel →
      parseMember fuel (serMember (k, v) ++ rest) = some ((k, v), rest)) ∧
    (∀ vs rest, (serATail vs ++ rest).length < fuel →
      parseATail fuel (serATail vs ++ rest) = some (vs, rest)) ∧
    (∀ ms rest, (serOTail ms ++ rest).length < fuel →
      parseOTail fuel (serOTail ms ++ rest) = some (ms, rest)) := by
  induction fuel with
  | zero =>
    exact ⟨fun v rest h1 h2 => absurd h2 (by omega),
      fun k v rest h1 h2 => absurd h2 (by omega),
      fun vs rest h2 => absurd h2 (by omega),
      fun ms rest h2 => absurd h2 (by omega)⟩
  | succ g ih =>
    obtain ⟨ihA, ihM, ihAT, ihOT⟩ := ih
    refine ⟨?_, ?_, ?_, ?_⟩
    · intro v rest hdel hlen
      cases v with
      | null => rfl
      | bool b =>
        cases b with
        | true => rfl
        | false => rfl
      | num n =>
        by_cases hn : n < 0
        · have hser : serJson (Json.num n) = '-' :: natDigits (-n).toNat := by
            rw [show serJson (Json.num n) = intChars n from rfl, intChars, if_pos hn]
          rw [hser, List.cons_append]
          have hred : parseValue (g + 1) ('-' :: (natDigits (-n).toNat ++ rest)) =
              (match parseNat (natDigits (-n).toNat ++ rest) with
              | some (n2, r2) => some (Json.num (-(n2 : Int)), r2)
              | none => none) := rfl
          rw [hred, parseNat_natDigits _ _ hdel]
          have hc : ((-n).toNat : Int) = -n := Int.toNat_of_nonneg (by omega)
          dsimp only
          rw [hc, neg_neg]
        · have hser : serJson (Json.num n) = natDigits n.toNat := by
            rw [show serJson (Json.num n) = intChars n from rfl, intChars, if_neg hn]
          obtain ⟨d, t, heq, hd10, -⟩ := natDigits_spec n.toNat
          rw [hser, heq, List.cons_append,
            parseValue_digitHead g _ _ (isDigitChar_digitChar hd10),
            ← List.cons_append, ← heq, parseNat_natDigits _ _ hdel]
          have hc : (n.toNat : Int) = n := Int.toNat_of_nonneg (by omega)
          dsimp only
          rw [hc]
      | str s =>
        have hser : serJson (Json.str s) ++ rest = '"' :: (escapeChars s.data ++ ('"' :: rest)) := by
          show ('"' :: (escapeChars s.data ++ ['"'])) ++ rest = _
          simp
        rw [hser]
        have hred : parseValue (g + 1) ('"' :: (escapeChars s.data ++ ('"' :: rest))) =
            (parseStringBody (escapeChars s.data ++ ('"' :: rest))).map
              (fun p => (Json.str (String.mk p.1), p.2)) := rfl
        rw [hred, parseStringBody_escapeChars]
        rfl
      | arr xs =>
        cases xs with
        | nil => rfl
        | cons v1 vs =>
          have hser : serJson (Json.arr (v1 :: vs)) ++ rest =
              '[' :: (serJson v1 ++ (serATail vs ++ rest)) := by
            show ('[' :: (serJson v1 ++ serATail vs)) ++ rest = _
            simp
          obtain ⟨c1, t1, hh, hws1, hnb1, -⟩ := serJson_head v1
          have hp1 := serJson_len_pos v1
          rw [hser] at hlen ⊢
          simp only [List.length_cons, List.length_append] at hlen
          rw [parseValue_bracket g _ c1 (t1 ++ (serATail vs ++ rest))
            (by rw [hh]; simp) hws1 hnb1]
          rw [ihA v1 (serATail vs ++ rest) (noDigitHead_serATail vs rest)
            (by simp only [List.length_append]; omega)]
          dsimp only
          rw [ihAT vs rest (by simp only [List.length_append]; omega)]
      | obj ms =>
        cases ms with
        | nil => rfl
        | cons m ms2 =>
          obtain ⟨k, v⟩ := m
          have hser : serJson (Json.obj ((k, v) :: ms2)) ++ rest =
              '{' :: (serMember (k, v) ++ (serOTail ms2 ++ rest)) := by
            show ('{' :: (serMember (k, v) ++ serOTail ms2)) ++ rest = _
            simp
          have hp1 : 1 ≤ (serMember (k, v)).length := by
            show 1 ≤ (serString k ++ ':' :: serJson v).length
            simp [serString]
          rw [hser] at hlen ⊢
          simp only [List.length_cons, List.length_append] at hlen
          have hred : parseValue (g + 1) ('{' :: (serMember (k, v) ++ (serOTail ms2 ++ rest))) =
              (match parseMember g (serMember (k, v) ++ (serOTail ms2 ++ rest)) with
              | some (m1, r1) =>
                (match parseOTail g r1 with
                | some (ms3, r2) => some (Json.obj (m1 :: ms3), r2)
                | none => none)
              | none => none) := rfl
          rw [hred, ihM k v (serOTail ms2 ++ rest) (noDigitHead_serOTail ms2 rest)
            (by simp only [List.length_append]; omega)]
          dsimp only
          rw [ihOT ms2 rest (by simp only [List.length_append]; omega)]
    · intro k v rest hdel hlen
      have hser : serMember (k, v) ++ rest =
          '"' :: (escapeChars k.data ++ ('"' :: (':' :: (serJson v ++ rest)))) := by
        show (('"' :: (escapeChars k.data ++ ['"'])) ++ ':' :: serJson v) ++ rest = _
        simp
      rw [hser] at hlen ⊢
      simp only [List.length_cons, List.length_append] at hlen
      have hred : parseMember (g + 1)
          ('"' :: (escapeChars k.data ++ ('"' :: (':' :: (serJson v ++ rest))))) =
          (match parseStringBody (escapeChars k.data ++ ('"' :: (':' :: (serJson v ++ rest)))) with
          | some (k1, r1) =>
            (match skipWs r1 with
            | ':' :: r2 =>
              (match parseValue g r2 with
              | some (v1, r3) => some ((String.mk k1, v1), r3)
              | none => none)
            | _ => none)
          | none => none) := rfl
      rw [hred, parseStringBody_escapeChars]
      dsimp only
      rw [skipWs_cons_of_not_ws (show isWs ':' = false from rfl)]
      show (match parseValue g (serJson v ++ rest) with
        | some (v1, r3) => some ((String.mk k.data, v1), r3)
        | none => none) = some ((k, v), rest)
      rw [ihA v rest hdel (by simp only [List.length_append]; omega)]
    · intro vs rest hlen
      cases vs with
      | nil => rfl
      | cons v vs2 =>
        have hser : serATail (v :: vs2) ++ rest = ',' :: (serJson v ++ (serATail vs2 ++ rest)) := by
          show (',' :: (serJson v ++ serATail vs2)) ++ rest = _
          simp
        have hp1 := serJson_len_pos v
        rw [hser] at hlen ⊢
        simp only [List.length_cons, List.length_append] at hlen
        have hred : parseATail (g + 1) (',' :: (serJson v ++ (serATail vs2 ++ rest))) =
            (match parseValue g (serJson v ++ (serATail vs2 ++ rest)) with
            | some (v1, r1) =>
              (match parseATail g r1 with
              | some (vs3, r2) => some (v1 :: vs3, r2)
              | none => none)
            | none => none) := rfl
        rw [hred, ihA v (serATail vs2 ++ rest) (noDigitHead_serATail vs2 rest)
          (by simp only [List.length_append]; omega)]
        dsimp only
        rw [ihAT vs2 rest (by simp only [List.length_append]; omega)]
    · intro ms rest hlen
      cases ms with
      | nil => rfl
      | cons m ms2 =>
        obtain ⟨k, v⟩ := m
        have hser : serOTail ((k, v) :: ms2) ++ rest =
            ',' :: (serMember (k, v) ++ (serOTail ms2 ++ rest)) := by
          show (',' :: (serMember (k, v) ++ serOTail ms2)) ++ rest = _
          simp
        have hp1 : 1 ≤ (serMember (k, v)).length := by
          show 1 ≤ (serString k ++ ':' :: serJson v).length
          simp [serString]
        rw [hser] at hlen ⊢
        simp only [List.length_cons, List.length_append] at hlen
        have hred : parseOTail (g + 1) (',' :: (serMember (k, v) ++ (serOTail ms2 ++ rest))) =
            (match parseMember g (serMember (k, v) ++ (serOTail ms2 ++ rest)) with
            | some (m1, r1) =>
              (match parseOTail g r1 with
              | some (ms3, r2) => some (m1 :: ms3, r2)
              | none => none)
            | none => none) := rfl
        rw [hred, ihM k v (serOTail ms2 ++ rest) (noDigitHead_serOTail ms2 rest)
          (by simp only [List.length_append]; omega)]
        dsimp only
        rw [ihOT ms2 rest (by simp only [List.length_append]; omega)]

theorem parseJson_serJson (v : Json) : parseJson (serJson v) = some v := by
  have h := (parse_ser_round ((serJson v).length + 1)).1 v [] noDigitHead_nil
    (by simp)
  rw [List.append_nil] at h
  rw [parseJson, h]
  rfl

/-! ## The byte splice of MarshalJSON -/

theorem trimSuf_concat (b : List Char) (c : Char) : trimSuf (b ++ [c]) [c] = b := by
  have hsuf : ([c] : List Char).isSuffixOf (b ++ [c]) = true := by
    simp [List.isSuffixOf, List.isPrefixOf]
  rw [trimSuf, if_pos hsuf]
  simp

theorem trimPre_cons (c : Char) (l : List Char) : trimPre (c :: l) [c] = l := by
  have hpre : ([c] : List Char).isPrefixOf (c :: l) = true := by
    simp [List.isPrefixOf]
  rw [trimPre, if_pos hpre]
  simp

theorem serMember_ne_nil (m : String × Json) : serMember m ≠ [] := by
  obtain ⟨k, v⟩ := m
  simp [serMember, serString]

theorem serOTail_ne_nil (ms : List (String × Json)) : serOTail ms ≠ [] := by
  cases ms <;> simp [serOTail]

theorem serOTail_shape (ms : List (String × Json)) :
    serOTail ms = (serOTail ms).dropLast ++ ['}'] := by
  induction ms with
  | nil => rfl
  | cons m ms2 ih =>
    rw [serOTail]
    have hne : serMember m ++ serOTail ms2 ≠ [] := by
      simp [serMember_ne_nil m]
    rw [List.dropLast_cons_of_ne_nil hne, List.cons_append]
    congr 1
    rw [List.dropLast_append_of_ne_nil (serMember m) (serOTail_ne_nil ms2), List.append_assoc]
    congr 1

theorem serOTail_splice (f : String × Json) (fs : List (String × Json)) :
    ∀ cs : List (String × Json),
      (serOTail cs).dropLast ++ ',' :: (serMember f ++ serOTail fs) = serOTail (cs ++ f :: fs) := by
  intro cs
  induction cs with
  | nil => rfl
  | cons c cs2 ih =>
    rw [List.cons_append, serOTail, serOTail]
    have hne : serMember c ++ serOTail cs2 ≠ [] := by
      simp [serMember_ne_nil c]
    rw [List.dropLast_cons_of_ne_nil hne, List.cons_append]
    congr 1
    rw [List.dropLast_append_of_ne_nil (serMember c) (serOTail_ne_nil cs2), List.append_assoc, ih]

theorem splice_eq (cf1 : String × Json) (cfs : List (String × Json)) (f1 : String × Json)
    (fs : List (String × Json)) :
    trimSuf (serJson (Json.obj (cf1 :: cfs))) ['}'] ++
      ',' :: trimPre (serJson (Json.obj (f1 :: fs))) ['{'] =
    serJson (Json.obj ((cf1 :: cfs) ++ f1 :: fs)) := by
  have hshape : serJson (Json.obj (cf1 :: cfs)) =
      ('{' :: (serMember cf1 ++ (serOTail cfs).dropLast)) ++ ['}'] := by
    show '{' :: (serMember cf1 ++ serOTail cfs) = _
    conv_lhs => rw [serOTail_shape cfs]
    simp
  rw [hshape, trimSuf_concat]
  have htp : trimPre (serJson (Json.obj (f1 :: fs))) ['{'] = serMember f1 ++ serOTail fs := by
    show trimPre ('{' :: (serMember f1 ++ serOTail fs)) ['{'] = _
    exact trimPre_cons _ _
  rw [htp]
  show _ = '{' :: (serMember cf1 ++ serOTail (cfs ++ f1 :: fs))
  rw [← serOTail_splice f1 fs cfs]
  simp

theorem insertByKey_len {α : Type} (p : String × α) (l : List (String × α)) :
    (insertByKey p l).length = l.length + 1 := by
  induction l with
  | nil => rfl
  | cons q qs ih =>
    rw [insertByKey]
    by_cases h : p.1 ≤ q.1
    · rw [if_pos h]; simp
    · rw [if_neg h]; simp [ih]

theorem sortByKey_len {α : Type} (l : List (String × α)) : (sortByKey l).length = l.length := by
  induction l with
  | nil => rfl
  | cons p ps ih => rw [sortByKey, insertByKey_len, ih]; rfl

theorem cfWireMembers_len (cf : CustomField) : (cfWireMembers cf).length = cf.length := by
  rw [cfWireMembers, List.length_map, sortByKey_len]

theorem marshal_empty_cf (f : ModifyIssueFields) (h : f.customFields = []) :
    marshalModifyIssueFields f = serJson (Json.obj (fixedFieldMembers f)) := by
  simp [marshalModifyIssueFields, h]

theorem marshal_splice_form (f : ModifyIssueFields) (hne : f.customFields ≠ []) :
    marshalModifyIssueFields f =
      trimSuf (serJson (Json.obj (cfWireMembers f.customFields))) ['}'] ++
        ',' :: trimPre (serJson (Json.obj (fixedFieldMembers f))) ['{'] := by
  have hb : f.customFields.isEmpty = false := by
    cases hc : f.customFields with
    | nil => exact absurd hc hne
    | cons a l => rfl
  simp [marshalModifyIssueFields, hb]

theorem marshal_with_fixed (f : ModifyIssueFields) (c1 : String × Json)
    (cfs : List (String × Json)) (f1 : String × Json) (fs : List (String × Json))
    (hcf : cfWireMembers f.customFields = c1 :: cfs)
    (hne : f.customFields ≠ [])
    (hfix : fixedFieldMembers f = f1 :: fs) :
    marshalModifyIssueFields f = serJson (Json.obj ((c1 :: cfs) ++ f1 :: fs)) := by
  rw [marshal_splice_form f hne, hcf, hfix, splice_eq]

theorem marshal_bad_shape (f : ModifyIssueFields) (c1 : String × Json)
    (cfs : List (String × Json))
    (hcf : cfWireMembers f.customFields = c1 :: cfs)
    (hne : f.customFields ≠ [])
    (hfix : fixedFieldMembers f = []) :
    marshalModifyIssueFields f =
      '{' :: (serMember c1 ++ ((serOTail cfs).dropLast ++ [',', '}'])) := by
  rw [marshal_splice_form f hne, hcf, hfix]
  have h1 : trimPre (serJson (Json.obj [])) ['{'] = ['}'] := trimPre_cons '{' ['}']
  rw [h1]
  have h2 : serJson (Json.obj (c1 :: cfs)) =
      ('{' :: (serMember c1 ++ (serOTail cfs).dropLast)) ++ ['}'] := by
    show '{' :: (serMember c1 ++ serOTail cfs) = _
    conv_lhs => rw [serOTail_shape cfs]
    simp
  rw [h2, trimSuf_concat]
  simp

theorem parseMember_brace (g : Nat) : parseMember g ['}'] = none := by
  cases g with
  | zero => rfl
  | succ g2 => rfl

theorem noDigitHead_badRest (cfs : List (String × Json)) :
    noDigitHead ((serOTail cfs).dropLast ++ [',', '}']) := by
  cases cfs with
  | nil => exact noDigitHead_cons ',' (by decide) _
  | cons c cs2 =>
    have hne : serMember c ++ serOTail cs2 ≠ [] := by simp [serMember_ne_nil c]
    rw [serOTail, List.dropLast_cons_of_ne_nil hne, List.cons_append]
    exact noDigitHead_cons ',' (by decide) _

theorem parseOTail_neg (fuel : Nat) : ∀ cfs : List (String × Json),
    ((serOTail cfs).dropLast ++ [',', '}']).length < fuel →
    parseOTail fuel ((serOTail cfs).dropLast ++ [',', '}']) = none := by
  induction fuel with
  | zero => intro cfs h; rfl
  | succ g ih =>
    intro cfs hlen
    cases cfs with
    | nil =>
      show parseOTail (g + 1) ([',', '}']) = none
      have hred : parseOTail (g + 1) ([',', '}'] : List Char) =
          (match parseMember g ['}'] with
          | some (m1, r1) =>
            (match parseOTail g r1 with
            | some (ms3, r2) => some (m1 :: ms3, r2)
            | none => none)
          | none => none) := rfl
      rw [hred, parseMember_brace]
    | cons c cs2 =>
      obtain ⟨k, v⟩ := c
      have hne : serMember (k, v) ++ serOTail cs2 ≠ [] := by simp [serMember_ne_nil (k, v)]
      have hform : (serOTail ((k, v) :: cs2)).dropLast ++ ([',', '}'] : List Char) =
          ',' :: (serMember (k, v) ++ ((serOTail cs2).dropLast ++ [',', '}'])) := by
        rw [serOTail, List.dropLast_cons_of_ne_nil hne, List.cons_append,
          List.dropLast_append_of_ne_nil (serMember (k, v)) (serOTail_ne_nil cs2),
          List.append_assoc]
      rw [hform] at hlen ⊢
      simp only [List.length_cons, List.length_append, List.length_nil] at hlen
      have hred : parseOTail (g + 1)
          (',' :: (serMember (k, v) ++ ((serOTail cs2).dropLast ++ [',', '}']))) =
          (match parseMember g (serMember (k, v) ++ ((serOTail cs2).dropLast ++ [',', '}'])) with
          | some (m1, r1) =>
            (match parseOTail g r1 with
            | some (ms3, r2) => some (m1 :: ms3, r2)
            | none => none)
          | none => none) := rfl
      have hp1 : 1 ≤ (serMember (k, v)).length := by
        show 1 ≤ (serString k ++ ':' :: serJson v).length
        simp [serString]
      rw [hred, (parse_ser_round g).2.1 k v _ (noDigitHead_badRest cs2)
        (by simp only [List.length_append, List.length_cons, List.length_nil]; omega)]
      dsimp only
      rw [ih cs2 (by simp only [List.length_append, List.length_cons, List.length_nil] at *; omega)]

theorem parse_marshal_bad (f : ModifyIssueFields) (hne : f.customFields ≠ [])
    (hfix : fixedFieldMembers f = []) :
    parseJson (marshalModifyIssueFields f) = none := by
  have hL := cfWireMembers_len f.customFields
  cases hcf : cfWireMembers f.customFields with
  | nil =>
    rw [hcf] at hL
    simp at hL
    exact absurd (List.length_eq_zero.mp hL.symm) hne
  | cons c1 cfs =>
    obtain ⟨k1, v1⟩ := c1
    rw [marshal_bad_shape f (k1, v1) cfs hcf hne hfix, parseJson]
    have hlc : (('{' :: (serMember (k1, v1) ++ ((serOTail cfs).dropLast ++ [',', '}']))).length) =
        (serMember (k1, v1) ++ ((serOTail cfs).dropLast ++ [',', '}'])).length + 1 := by
      simp
    rw [hlc]
    have hp1 : 1 ≤ (serMember (k1, v1)).length := by
      show 1 ≤ (serString k1 ++ ':' :: serJson v1).length
      simp [serString]
    have hred : parseValue ((serMember (k1, v1) ++ ((serOTail cfs).dropLast ++ [',', '}'])).length + 1 + 1)
        ('{' :: (serMember (k1, v1) ++ ((serOTail cfs).dropLast ++ [',', '}']))) =
        (match parseMember ((serMember (k1, v1) ++ ((serOTail cfs).dropLast ++ [',', '}'])).length + 1)
            (serMember (k1, v1) ++ ((serOTail cfs).dropLast ++ [',', '}'])) with
        | some (m1, r1) =>
          (match parseOTail ((serMember (k1, v1) ++ ((serOTail cfs).dropLast ++ [',', '}'])).length + 1) r1 with
          | some (ms3, r2) => some (Json.obj (m1 :: ms3), r2)
          | none => none)
        | none => none) := rfl
    rw [hred, (parse_ser_round _).2.1 k1 v1 _ (noDigitHead_badRest cfs)
      (by simp only [List.length_append, List.length_cons, List.length_nil]; omega)]
    dsimp only
    rw [parseOTail_neg _ cfs
      (by simp only [List.length_append, List.length_cons, List.length_nil]; omega)]

/-! ## Lookup utilities for the decode path -/

theorem lookup_none_of_no_key {α : Type} (k : String) (l : List (String × α))
    (h : ∀ p ∈ l, p.1 ≠ k) : List.lookup k l = none := by
  induction l with
  | nil => rfl
  | cons q qs ih =>
    obtain ⟨k2, v2⟩ := q
    have hne : (k == k2) = false :=
      beq_eq_false_iff_ne.mpr (fun hh => (h (k2, v2) (by simp)) (hh ▸ rfl))
    rw [List.lookup_cons, hne]
    exact ih (fun p hp => h p (by simp [hp]))

theorem lookup_mem {α : Type} (k : String) (l : List (String × α)) (v : α)
    (h : List.lookup k l = some v) : (k, v) ∈ l := by
  induction l with
  | nil => simp at h
  | cons q qs ih =>
    obtain ⟨k2, v2⟩ := q
    rw [List.lookup_cons] at h
    cases hbeq : (k == k2) with
    | true =>
      rw [hbeq] at h
      injection h with hv
      have hk : k = k2 := eq_of_beq hbeq
      subst hk
      subst hv
      simp
    | false =>
      rw [hbeq] at h
      exact List.mem_cons_of_mem _ (ih h)

theorem lookup_append_str {α : Type} (k : String) (a b : List (String × α)) :
    List.lookup k (a ++ b) =
      (match List.lookup k a with
      | some v => some v
      | none => List.lookup k b) := by
  induction a with
  | nil => rfl
  | cons q qs ih =>
    obtain ⟨k2, v2⟩ := q
    rw [List.cons_append, List.lookup_cons, List.lookup_cons]
    cases hbeq : (k == k2) <;> simp [ih]

theorem jLookup_none_of_no_key (k : String) (ms : List (String × Json))
    (h : ∀ p ∈ ms, p.1 ≠ k) : jLookup k ms = none := by
  rw [jLookup]
  exact lookup_none_of_no_key k ms.reverse (fun p hp => h p (List.mem_reverse.mp hp))

theorem jLookup_append_right_none (k : String) (ms1 ms2 : List (String × Json))
    (h : ∀ p ∈ ms2, p.1 ≠ k) : jLookup k (ms1 ++ ms2) = jLookup k ms1 := by
  rw [jLookup, List.reverse_append, lookup_append_str,
    lookup_none_of_no_key k ms2.reverse (fun p hp => h p (List.mem_reverse.mp hp))]
  rfl

theorem jLookup_mem (k : String) (ms : List (String × Json)) (v : Json)
    (h : jLookup k ms = some v) : (k, v) ∈ ms := by
  rw [jLookup] at h
  exact List.mem_reverse.mp (lookup_mem k ms.reverse v h)

theorem jLookup_append_left_none (k : String) (ms1 ms2 : List (String × Json))
    (h : ∀ p ∈ ms1, p.1 ≠ k) : jLookup k (ms1 ++ ms2) = jLookup k ms2 := by
  rw [jLookup, List.reverse_append, lookup_append_str,
    lookup_none_of_no_key k ms1.reverse (fun p hp => h p (List.mem_reverse.mp hp)),
    show jLookup k ms2 = List.lookup k ms2.reverse from rfl]
  cases List.lookup k ms2.reverse <;> rfl

theorem mem_if_singleton {c : Prop} [inst : Decidable c] {k : String} {v : Json}
    {q : String × Json}
    (hq : q ∈ (if c then ([] : List (String × Json)) else [(k, v)])) : q = (k, v) := by
  split at hq
  · simp at hq
  · simpa using hq

theorem projectPiece_key (f : ModifyIssueFields) : ∀ p ∈ projectPiece f, p.1 = "project" := by
  intro p hp
  cases hpr : f.project with
  | none => simp [projectPiece, hpr] at hp
  | some pr =>
    simp [projectPiece, hpr] at hp
    simp [hp]

theorem summaryPiece_key (f : ModifyIssueFields) : ∀ p ∈ summaryPiece f, p.1 = "summary" := by
  intro p hp
  rw [summaryPiece] at hp
  rw [mem_if_singleton hp]

theorem issueTypePiece_key (f : ModifyIssueFields) : ∀ p ∈ issueTypePiece f, p.1 = "issuetype" := by
  intro p hp
  cases hit : f.issueType with
  | none => simp [issueTypePiece, hit] at hp
  | some it =>
    simp [issueTypePiece, hit] at hp
    simp [hp]

theorem fixVersionsPiece_key (f : ModifyIssueFields) :
    ∀ p ∈ fixVersionsPiece f, p.1 = "fixVersions" := by
  intro p hp
  rw [fixVersionsPiece] at hp
  rw [mem_if_singleton hp]

theorem descriptionPiece_key (f : ModifyIssueFields) :
    ∀ p ∈ descriptionPiece f, p.1 = "description" := by
  intro p hp
  rw [descriptionPiece] at hp
  rw [mem_if_singleton hp]

theorem fixedFieldMembers_keys (f : ModifyIssueFields) : ∀ p ∈ fixedFieldMembers f,
    p.1 = "project" ∨ p.1 = "summary" ∨ p.1 = "issuetype" ∨ p.1 = "fixVersions" ∨
      p.1 = "description" := by
  intro p hp
  rw [fixedFieldMembers] at hp
  simp only [List.mem_append] at hp
  rcases hp with ((((h | h) | h) | h) | h)
  · exact Or.inl (projectPiece_key f p h)
  · exact Or.inr (Or.inl (summaryPiece_key f p h))
  · exact Or.inr (Or.inr (Or.inl (issueTypePiece_key f p h)))
  · exact Or.inr (Or.inr (Or.inr (Or.inl (fixVersionsPiece_key f p h))))
  · exact Or.inr (Or.inr (Or.inr (Or.inr (descriptionPiece_key f p h))))

theorem jLookup_project (f : ModifyIssueFields) :
    jLookup "project" (fixedFieldMembers f) = f.project.map serProject := by
  rw [fixedFieldMembers,
    jLookup_append_right_none _ _ _
      (fun p hp => by rw [descriptionPiece_key f p hp]; decide),
    jLookup_append_right_none _ _ _
      (fun p hp => by rw [fixVersionsPiece_key f p hp]; decide),
    jLookup_append_right_none _ _ _
      (fun p hp => by rw [issueTypePiece_key f p hp]; decide),
    jLookup_append_right_none _ _ _
      (fun p hp => by rw [summaryPiece_key f p hp]; decide)]
  cases hpr : f.project with
  | none => simp [projectPiece, hpr]; rfl
  | some pr => simp [projectPiece, hpr]; rfl

theorem jLookup_summary (f : ModifyIssueFields) :
    jLookup "summary" (fixedFieldMembers f) =
      (if f.summary = "" then none else some (Json.str f.summary)) := by
  rw [fixedFieldMembers,
    jLookup_append_right_none _ _ _
      (fun p hp => by rw [descriptionPiece_key f p hp]; decide),
    jLookup_append_right_none _ _ _
      (fun p hp => by rw [fixVersionsPiece_key f p hp]; decide),
    jLookup_append_right_none _ _ _
      (fun p hp => by rw [issueTypePiece_key f p hp]; decide),
    jLookup_append_left_none _ _ _
      (fun p hp => by rw [projectPiece_key f p hp]; decide)]
  rw [summaryPiece]
  split
  · rfl
  · rfl

theorem jLookup_issuetype (f : ModifyIssueFields) :
    jLookup "issuetype" (fixedFieldMembers f) = f.issueType.map serIssueType := by
  rw [fixedFieldMembers,
    jLookup_append_right_none _ _ _
      (fun p hp => by rw [descriptionPiece_key f p hp]; decide),
    jLookup_append_right_none _ _ _
      (fun p hp => by rw [fixVersionsPiece_key f p hp]; decide),
    jLookup_append_left_none _ _ _
      (fun p hp => by
        rcases List.mem_append.mp hp with h | h
        · rw [projectPiece_key f p h]; decide
        · rw [summaryPiece_key f p h]; decide)]
  cases hit : f.issueType with
  | none => simp [issueTypePiece, hit]; rfl
  | some it => simp [issueTypePiece, hit]; rfl

theorem jLookup_fixVersions (f : ModifyIssueFields) :
    jLookup "fixVersions" (fixedFieldMembers f) =
      (if f.fixVersions.isEmpty then none
       else some (Json.arr (f.fixVersions.map serOptFixVersion))) := by
  rw [fixedFieldMembers,
    jLookup_append_right_none _ _ _
      (fun p hp => by rw [descriptionPiece_key f p hp]; decide),
    jLookup_append_left_none _ _ _
      (fun p hp => by
        rcases List.mem_append.mp hp with h | h
        · rcases List.mem_append.mp h with h2 | h2
          · rw [projectPiece_key f p h2]; decide
          · rw [summaryPiece_key f p h2]; decide
        · rw [issueTypePiece_key f p h]; decide)]
  rw [fixVersionsPiece]
  split
  · rfl
  · rfl

theorem jLookup_description (f : ModifyIssueFields) :
    jLookup "description" (fixedFieldMembers f) =
      (if f.description = "" then none else some (Json.str f.description)) := by
  rw [fixedFieldMembers,
    jLookup_append_left_none _ _ _
      (fun p hp => by
        rcases List.mem_append.mp hp with h | h
        · rcases List.mem_append.mp h with h2 | h2
          · rcases List.mem_append.mp h2 with h3 | h3
            · rw [projectPiece_key f p h3]; decide
            · rw [summaryPiece_key f p h3]; decide
          · rw [issueTypePiece_key f p h2]; decide
        · rw [fixVersionsPiece_key f p h]; decide)]
  rw [descriptionPiece]
  split
  · rfl
  · rfl

theorem jLookup_fixed_absent (f : ModifyIssueFields) (k : String)
    (h1 : k ≠ "project") (h2 : k ≠ "summary") (h3 : k ≠ "issuetype")
    (h4 : k ≠ "fixVersions") (h5 : k ≠ "description") :
    jLookup k (fixedFieldMembers f) = none := by
  refine jLookup_none_of_no_key k _ (fun p hp => ?_)
  rcases fixedFieldMembers_keys f p hp with h | h | h | h | h <;> rw [h]
  · exact fun hh => h1 hh.symm
  · exact fun hh => h2 hh.symm
  · exact fun hh => h3 hh.symm
  · exact fun hh => h4 hh.symm
  · exact fun hh => h5 hh.symm

/-! ## Success of the typed decode pass on marshalled output -/

theorem insertByKey_perm {α : Type} (p : String × α) (l : List (String × α)) :
    List.Perm (insertByKey p l) (p :: l) := by
  induction l with
  | nil => exact List.Perm.refl _
  | cons q qs ih =>
    rw [insertByKey]
    by_cases h : p.1 ≤ q.1
    · rw [if_pos h]
    · rw [if_neg h]
      exact List.Perm.trans (List.Perm.cons q ih) (List.Perm.swap p q qs)

theorem sortByKey_perm {α : Type} (l : List (String × α)) : List.Perm (sortByKey l) l := by
  induction l with
  | nil => exact List.Perm.refl _
  | cons p ps ih =>
    rw [sortByKey]
    exact List.Perm.trans (insertByKey_perm p (sortByKey ps)) (List.Perm.cons p ih)

theorem cfWireMembers_keys (cf : CustomField)
    (hkeys : ∀ p ∈ cf, goHasPre "customfield_" p.1 = true) :
    ∀ p ∈ cfWireMembers cf, goHasPre "customfield_" p.1 = true := by
  intro p hp
  rw [cfWireMembers] at hp
  obtain ⟨q, hq, hpq⟩ := List.mem_map.mp hp
  have hq2 : q ∈ cf := (sortByKey_perm cf).mem_iff.mp hq
  rw [← hpq]
  exact hkeys q hq2

theorem goHasPre_customfield_ne (k : String) (h : goHasPre "customfield_" k = true) :
    k ≠ "project" ∧ k ≠ "summary" ∧ k ≠ "issuetype" ∧ k ≠ "fixVersions" ∧
      k ≠ "description" ∧ k ≠ "status" ∧ k ≠ "created" ∧ k ≠ "comment" := by
  refine ⟨?_, ?_, ?_, ?_, ?_, ?_, ?_, ?_⟩ <;> intro hk <;> rw [hk] at h <;>
    exact absurd h (by decide)

theorem jLookup_cf_skip (f : ModifyIssueFields) (k : String)
    (hkeys : ∀ p ∈ f.customFields, goHasPre "customfield_" p.1 = true)
    (hk : goHasPre "customfield_" k = false) :
    jLookup k (cfWireMembers f.customFields ++ fixedFieldMembers f) =
      jLookup k (fixedFieldMembers f) := by
  refine jLookup_append_left_none k _ _ (fun p hp => ?_)
  intro hpk
  have := cfWireMembers_keys f.customFields hkeys p hp
  rw [hpk, hk] at this
  exact Bool.noConfusion this

theorem decStringField_str_values (ms : List (String × Json))
    (h : ∀ q ∈ ms, ∃ s, q.2 = Json.str s) (k : String) :
    ∃ s, decStringField ms k = some s := by
  rw [decStringField]
  cases hl : jLookup k ms with
  | none => exact ⟨"", rfl⟩
  | some v =>
    obtain ⟨s, hs⟩ := h (k, v) (jLookup_mem k ms v hl)
    exact ⟨s, by rw [show v = Json.str s from hs]⟩

theorem serProjectMembers_str (p : Project) :
    ∀ q ∈ serProjectMembers p, ∃ s, q.2 = Json.str s := by
  intro q hq
  rw [serProjectMembers] at hq
  simp only [List.mem_append] at hq
  rcases hq with ((h | h) | h) | h <;> rw [mem_if_singleton h] <;> exact ⟨_, rfl⟩

theorem decProject_isSome (p : Project) : (decProject (serProjectMembers p)).isSome = true := by
  obtain ⟨s1, h1⟩ := decStringField_str_values _ (serProjectMembers_str p) "id"
  obtain ⟨s2, h2⟩ := decStringField_str_values _ (serProjectMembers_str p) "self"
  obtain ⟨s3, h3⟩ := decStringField_str_values _ (serProjectMembers_str p) "key"
  obtain ⟨s4, h4⟩ := decStringField_str_values _ (serProjectMembers_str p) "name"
  simp [decProject, h1, h2, h3, h4]

theorem decList_isSome {α : Type} (g : Json → Option α) (xs : List Json)
    (h : ∀ x ∈ xs, (g x).isSome = true) : (decList g xs).isSome = true := by
  induction xs with
  | nil => rfl
  | cons x xs ih =>
    obtain ⟨y, hy⟩ := Option.isSome_iff_exists.mp (h x (by simp))
    obtain ⟨ys, hys⟩ := Option.isSome_iff_exists.mp (ih (fun a ha => h a (by simp [ha])))
    rw [decList, hy, hys]
    rfl

theorem decOptFixVersion_ser (ofv : Option FixVersion) :
    (decOptFixVersion (serOptFixVersion ofv)).isSome = true := by
  cases ofv with
  | none => rfl
  | some fv => rfl

theorem typed_decode_marshal (f : ModifyIssueFields)
    (hkeys : ∀ p ∈ f.customFields, goHasPre "customfield_" p.1 = true) :
    ∃ flds, decodeIssueFieldsTyped
      (Json.obj (cfWireMembers f.customFields ++ fixedFieldMembers f)) = some flds := by
  have hproj : jLookup "project" (cfWireMembers f.customFields ++ fixedFieldMembers f) =
      f.project.map serProject := by
    rw [jLookup_cf_skip f _ hkeys (by decide), jLookup_project]
  have hsum : jLookup "summary" (cfWireMembers f.customFields ++ fixedFieldMembers f) =
      (if f.summary = "" then none else some (Json.str f.summary)) := by
    rw [jLookup_cf_skip f _ hkeys (by decide), jLookup_summary]
  have hit : jLookup "issuetype" (cfWireMembers f.customFields ++ fixedFieldMembers f) =
      f.issueType.map serIssueType := by
    rw [jLookup_cf_skip f _ hkeys (by decide), jLookup_issuetype]
  have hfv : jLookup "fixVersions" (cfWireMembers f.customFields ++ fixedFieldMembers f) =
      (if f.fixVersions.isEmpty then none
       else some (Json.arr (f.fixVersions.map serOptFixVersion))) := by
    rw [jLookup_cf_skip f _ hkeys (by decide), jLookup_fixVersions]
  have hdesc : jLookup "description" (cfWireMembers f.customFields ++ fixedFieldMembers f) =
      (if f.description = "" then none else some (Json.str f.description)) := by
    rw [jLookup_cf_skip f _ hkeys (by decide), jLookup_description]
  have hstat : jLookup "status" (cfWireMembers f.customFields ++ fixedFieldMembers f) = none := by
    rw [jLookup_cf_skip f _ hkeys (by decide)]
    exact jLookup_fixed_absent f _ (by decide) (by decide) (by decide) (by decide) (by decide)
  have hcre : jLookup "created" (cfWireMembers f.customFields ++ fixedFieldMembers f) = none := by
    rw [jLookup_cf_skip f _ hkeys (by decide)]
    exact jLookup_fixed_absent f _ (by decide) (by decide) (by decide) (by decide) (by decide)
  have hcom : jLookup "comment" (cfWireMembers f.customFields ++ fixedFieldMembers f) = none := by
    rw [jLookup_cf_skip f _ hkeys (by decide)]
    exact jLookup_fixed_absent f _ (by decide) (by decide) (by decide) (by decide) (by decide)
  have e1 : ∃ x1, decProjectField (cfWireMembers f.customFields ++ fixedFieldMembers f) =
      some x1 := by
    rw [decProjectField, hproj]
    cases f.project with
    | none => exact ⟨none, rfl⟩
    | some pr =>
      obtain ⟨x, hx⟩ := Option.isSome_iff_exists.mp (decProject_isSome pr)
      exact ⟨some x, by show ((decProject (serProjectMembers pr)).map some) = _; rw [hx]; rfl⟩
  have e2 : ∃ x2, decStringField (cfWireMembers f.customFields ++ fixedFieldMembers f)
      "summary" = some x2 := by
    by_cases hc : f.summary = ""
    · rw [decStringField, hsum, if_pos hc]
      exact ⟨"", rfl⟩
    · rw [decStringField, hsum, if_neg hc]
      exact ⟨f.summary, rfl⟩
  have e3 : ∃ x3, decIssueTypeField (cfWireMembers f.customFields ++ fixedFieldMembers f) =
      some x3 := by
    rw [decIssueTypeField, hit]
    cases f.issueType with
    | none => exact ⟨none, rfl⟩
    | some it => exact ⟨some ⟨it.id, it.self, it.name, it.subTask, it.description⟩, rfl⟩
  have e4 : ∃ x4, decFixVersionsField (cfWireMembers f.customFields ++ fixedFieldMembers f) =
      some x4 := by
    by_cases hc : f.fixVersions.isEmpty = true
    · rw [decFixVersionsField, hfv, if_pos hc]
      exact ⟨[], rfl⟩
    · rw [decFixVersionsField, hfv, if_neg hc]
      obtain ⟨ys, hys⟩ := Option.isSome_iff_exists.mp
        (decList_isSome decOptFixVersion (f.fixVersions.map serOptFixVersion)
          (fun x hx => by
            obtain ⟨ofv, hofv, hser⟩ := List.mem_map.mp hx
            rw [← hser]
            exact decOptFixVersion_ser ofv))
      exact ⟨ys, hys⟩
  have e5 : decStatusField (cfWireMembers f.customFields ++ fixedFieldMembers f) =
      some zeroStatus := by
    rw [decStatusField, hstat]
  have e6 : decStringField (cfWireMembers f.customFields ++ fixedFieldMembers f) "created" =
      some "" := by
    rw [decStringField, hcre]
  have e7 : ∃ x7, decStringField (cfWireMembers f.customFields ++ fixedFieldMembers f)
      "description" = some x7 := by
    by_cases hc : f.description = ""
    · rw [decStringField, hdesc, if_pos hc]
      exact ⟨"", rfl⟩
    · rw [decStringField, hdesc, if_neg hc]
      exact ⟨f.description, rfl⟩
  have e8 : decCommentField (cfWireMembers f.customFields ++ fixedFieldMembers f) =
      some zeroCommentField := by
    rw [decCommentField, hcom]
  obtain ⟨x1, e1⟩ := e1
  obtain ⟨x2, e2⟩ := e2
  obtain ⟨x3, e3⟩ := e3
  obtain ⟨x4, e4⟩ := e4
  obtain ⟨x7, e7⟩ := e7
  exact Option.isSome_iff_exists.mp
    (by simp [decodeIssueFieldsTyped, e1, e2, e3, e4, e5, e6, e7, e8])

/-! ## The generic custom-field extraction pass -/

theorem mapInsert_not_mem {α : Type} (acc : List (String × α)) (k : String) (v : α)
    (h : ∀ p ∈ acc, p.1 ≠ k) : mapInsert acc k v = acc ++ [(k, v)] := by
  have hb : (acc.any (fun p => p.1 = k)) = false := by
    rw [List.any_eq_false]
    intro p hp
    simp [h p hp]
  simp [mapInsert, hb]

theorem dedupLast_go (ms : List (String × Json)) : ∀ acc : List (String × Json),
    keysNodup ms → (∀ k, k ∈ acc.map Prod.fst → k ∉ ms.map Prod.fst) →
    ms.foldl (fun acc p => mapInsert acc p.1 p.2) acc = acc ++ ms := by
  induction ms with
  | nil => intro acc h1 h2; simp
  | cons p ms2 ih =>
    intro acc hnd hdisj
    have hp1 : ∀ q ∈ acc, q.1 ≠ p.1 := by
      intro q hq hqe
      exact hdisj q.1 (List.mem_map_of_mem Prod.fst hq) (by simp [hqe])
    rw [List.foldl_cons, mapInsert_not_mem acc p.1 p.2 hp1]
    have hnd2 : keysNodup ms2 := by
      rw [keysNodup] at hnd ⊢
      simp only [List.map_cons, List.nodup_cons] at hnd
      exact hnd.2
    have hdisj2 : ∀ k, k ∈ (acc ++ [(p.1, p.2)]).map Prod.fst → k ∉ ms2.map Prod.fst := by
      intro k hk hk2
      simp only [List.map_append, List.mem_append] at hk
      rcases hk with hk | hk
      · exact hdisj k hk (by simp [hk2])
      · simp at hk
        rw [keysNodup, List.map_cons, List.nodup_cons] at hnd
        exact hnd.1 (hk ▸ hk2)
    rw [ih (acc ++ [(p.1, p.2)]) hnd2 hdisj2, List.append_assoc]
    rfl

theorem dedupLast_eq_self (ms : List (String × Json)) (h : keysNodup ms) :
    dedupLast ms = ms := by
  rw [dedupLast]
  have := dedupLast_go ms [] h (by simp)
  simpa using this

theorem extract_go (gm : List (String × Json)) : ∀ acc : CustomField,
    keysNodup gm → (∀ k, k ∈ acc.map Prod.fst → k ∉ gm.map Prod.fst) →
    gm.foldl
      (fun acc p =>
        if goHasPre "customfield_" p.1 then
          match customValueOf p.2 with
          | some s => mapInsert acc p.1 s
          | none => acc
        else acc)
      acc = acc ++ specExtract gm := by
  induction gm with
  | nil => intro acc h1 h2; simp [specExtract]
  | cons p gm2 ih =>
    intro acc hnd hdisj
    have hnd2 : keysNodup gm2 := by
      rw [keysNodup] at hnd ⊢
      simp only [List.map_cons, List.nodup_cons] at hnd
      exact hnd.2
    have hdisj2 : ∀ k, k ∈ acc.map Prod.fst → k ∉ gm2.map Prod.fst := by
      intro k hk hk2
      exact hdisj k hk (by simp [hk2])
    have hheadnot : p.1 ∉ gm2.map Prod.fst := by
      rw [keysNodup, List.map_cons, List.nodup_cons] at hnd
      exact hnd.1
    by_cases hpre : goHasPre "customfield_" p.1 = true
    · cases hcv : customValueOf p.2 with
      | none =>
        have hsp : specExtract (p :: gm2) = specExtract gm2 := by
          rw [specExtract, specExtract, List.filterMap_cons, if_pos hpre, hcv]
          rfl
        simp only [List.foldl_cons, hpre, hcv, if_true, hsp]
        exact ih acc hnd2 hdisj2
      | some s =>
        have hp1 : ∀ q ∈ acc, q.1 ≠ p.1 := by
          intro q hq hqe
          exact hdisj q.1 (List.mem_map_of_mem Prod.fst hq) (by simp [hqe])
        have hsp : specExtract (p :: gm2) = (p.1, s) :: specExtract gm2 := by
          rw [specExtract, specExtract, List.filterMap_cons, if_pos hpre, hcv]
          rfl
        have hdisj3 : ∀ k, k ∈ (acc ++ [(p.1, s)]).map Prod.fst → k ∉ gm2.map Prod.fst := by
          intro k hk hk2
          simp only [List.map_append, List.mem_append] at hk
          rcases hk with hk | hk
          · exact hdisj2 k hk hk2
          · simp at hk
            exact hheadnot (hk ▸ hk2)
        simp only [List.foldl_cons, hpre, hcv, if_true, hsp,
          mapInsert_not_mem acc p.1 s hp1]
        rw [ih (acc ++ [(p.1, s)]) hnd2 hdisj3, List.append_assoc]
        rfl
    · have hsp : specExtract (p :: gm2) = specExtract gm2 := by
        rw [specExtract, specExtract, List.filterMap_cons,
          if_neg (by simp [hpre])]
      have hpre2 : goHasPre "customfield_" p.1 = false :=
        Bool.eq_false_iff.mpr hpre
      simp only [List.foldl_cons, hpre2, if_false, Bool.false_eq_true, hsp]
      exact ih acc hnd2 hdisj2

theorem extractCustomFields_eq (gm : List (String × Json)) (h : keysNodup gm) :
    extractCustomFields gm = specExtract gm := by
  rw [extractCustomFields]
  have := extract_go gm [] h (by simp)
  simpa using this

theorem customValueOf_wrapper (v : String) :
    customValueOf (Json.obj [("value", Json.str v)]) = some v := rfl

theorem specExtract_cons_true (k : String) (v : Json) (ms : List (String × Json))
    (hpre : goHasPre "customfield_" k = true) (s : String) (hcv : customValueOf v = some s) :
    specExtract ((k, v) :: ms) = (k, s) :: specExtract ms := by
  rw [specExtract, specExtract, List.filterMap_cons, if_pos hpre, hcv]
  rfl

theorem specExtract_wrapped (l : CustomField)
    (h : ∀ p ∈ l, goHasPre "customfield_" p.1 = true) :
    specExtract (l.map (fun p => (p.1, Json.obj [("value", Json.str p.2)]))) = l := by
  induction l with
  | nil => rfl
  | cons p ps ih =>
    simp only [List.map_cons]
    rw [specExtract_cons_true p.1 (Json.obj [("value", Json.str p.2)]) _ (h p (by simp))
      p.2 (customValueOf_wrapper p.2)]
    rw [ih (fun q hq => h q (by simp [hq]))]

theorem specExtract_no_pre (ms : List (String × Json))
    (h : ∀ p ∈ ms, goHasPre "customfield_" p.1 = false) : specExtract ms = [] := by
  induction ms with
  | nil => rfl
  | cons p ps ih =>
    rw [specExtract, List.filterMap_cons, if_neg (by simp [h p (by simp)])]
    exact ih (fun q hq => h q (by simp [hq]))

theorem specExtract_append (a b : List (String × Json)) :
    specExtract (a ++ b) = specExtract a ++ specExtract b := by
  rw [specExtract, specExtract, specExtract, List.filterMap_append]

theorem keysNodup_sortByKey (cf : CustomField) (h : keysNodup cf) :
    keysNodup (sortByKey cf) :=
  (((sortByKey_perm cf).map Prod.fst).nodup_iff).mpr h

theorem cfWireMembers_fst (cf : CustomField) :
    (cfWireMembers cf).map Prod.fst = (sortByKey cf).map Prod.fst := by
  rw [cfWireMembers, List.map_map]
  rfl

theorem projectPiece_fst (f : ModifyIssueFields) :
    ((projectPiece f).map Prod.fst).Sublist ["project"] := by
  rw [projectPiece]
  cases f.project with
  | none => exact List.nil_sublist _
  | some p => exact List.Sublist.refl _

theorem summaryPiece_fst (f : ModifyIssueFields) :
    ((summaryPiece f).map Prod.fst).Sublist ["summary"] := by
  rw [summaryPiece]
  by_cases h : f.summary = ""
  · rw [if_pos h]; exact List.nil_sublist _
  · rw [if_neg h]; exact List.Sublist.refl _

theorem issueTypePiece_fst (f : ModifyIssueFields) :
    ((issueTypePiece f).map Prod.fst).Sublist ["issuetype"] := by
  rw [issueTypePiece]
  cases f.issueType with
  | none => exact List.nil_sublist _
  | some it => exact List.Sublist.refl _

theorem fixVersionsPiece_fst (f : ModifyIssueFields) :
    ((fixVersionsPiece f).map Prod.fst).Sublist ["fixVersions"] := by
  rw [fixVersionsPiece]
  by_cases h : f.fixVersions.isEmpty = true
  · rw [if_pos h]; exact List.nil_sublist _
  · rw [if_neg h]; exact List.Sublist.refl _

theorem descriptionPiece_fst (f : ModifyIssueFields) :
    ((descriptionPiece f).map Prod.fst).Sublist ["description"] := by
  rw [descriptionPiece]
  by_cases h : f.description = ""
  · rw [if_pos h]; exact List.nil_sublist _
  · rw [if_neg h]; exact List.Sublist.refl _

theorem fixedFieldMembers_fst_sub (f : ModifyIssueFields) :
    ((fixedFieldMembers f).map Prod.fst).Sublist
      ["project", "summary", "issuetype", "fixVersions", "description"] := by
  rw [fixedFieldMembers]
  simp only [List.map_append]
  exact (((((projectPiece_fst f).append (summaryPiece_fst f)).append
    (issueTypePiece_fst f)).append (fixVersionsPiece_fst f)).append
    (descriptionPiece_fst f))

theorem keysNodup_fixed (f : ModifyIssueFields) : keysNodup (fixedFieldMembers f) :=
  List.Nodup.sublist (fixedFieldMembers_fst_sub f) (by decide)

theorem keysNodup_wire (f : ModifyIssueFields)
    (hkeys : ∀ p ∈ f.customFields, goHasPre "customfield_" p.1 = true)
    (hnd : keysNodup f.customFields) :
    keysNodup (cfWireMembers f.customFields ++ fixedFieldMembers f) := by
  rw [keysNodup, List.map_append, List.nodup_append]
  refine ⟨?_, ?_, ?_⟩
  · rw [cfWireMembers_fst]
    exact keysNodup_sortByKey f.customFields hnd
  · exact keysNodup_fixed f
  · intro k hk1 hk2
    obtain ⟨p, hp, hpk⟩ := List.mem_map.mp hk1
    obtain ⟨q, hq, hqk⟩ := List.mem_map.mp hk2
    have hpre : goHasPre "customfield_" k = true := by
      rw [← hpk]
      exact cfWireMembers_keys f.customFields hkeys p hp
    have := goHasPre_customfield_ne k hpre
    rcases fixedFieldMembers_keys f q hq with h | h | h | h | h <;>
      rw [h] at hqk
    · exact this.1 hqk.symm
    · exact this.2.1 hqk.symm
    · exact this.2.2.1 hqk.symm
    · exact this.2.2.2.1 hqk.symm
    · exact this.2.2.2.2.1 hqk.symm

theorem lookup_some_of_mem_nodup {α : Type} (k : String) (v : α)
    (l : List (String × α)) (hnd : keysNodup l) (hm : (k, v) ∈ l) :
    List.lookup k l = some v := by
  induction l with
  | nil => simp at hm
  | cons q qs ih =>
    rw [keysNodup, List.map_cons, List.nodup_cons] at hnd
    rcases List.mem_cons.mp hm with hh | ht
    · rw [← hh, List.lookup_cons, beq_self_eq_true]
    · have hkq : (k == q.1) = false := by
        refine beq_eq_false_iff_ne.mpr (fun hk => hnd.1 ?_)
        rw [← hk]
        exact List.mem_map_of_mem Prod.fst ht
      obtain ⟨k2, v2⟩ := q
      rw [List.lookup_cons, hkq]
      exact ih hnd.2 ht

theorem no_key_of_lookup_none {α : Type} (k : String) (l : List (String × α))
    (h : List.lookup k l = none) : k ∉ l.map Prod.fst := by
  induction l with
  | nil => simp
  | cons q qs ih =>
    obtain ⟨k2, v2⟩ := q
    rw [List.lookup_cons] at h
    cases hbeq : (k == k2) with
    | true => rw [hbeq] at h; exact Option.noConfusion h
    | false =>
      rw [hbeq] at h
      simp only [List.map_cons, List.mem_cons]
      rintro (hk | hk)
      · rw [hk, beq_self_eq_true] at hbeq
        exact Bool.noConfusion hbeq
      · exact ih h hk

theorem lookup_perm_nodup {α : Type} (l1 l2 : List (String × α))
    (hp : List.Perm l1 l2) (hnd : keysNodup l1) (k : String) :
    List.lookup k l1 = List.lookup k l2 := by
  have hnd2 : keysNodup l2 := ((hp.map Prod.fst).nodup_iff).mp hnd
  cases h1 : List.lookup k l1 with
  | some v =>
    exact (lookup_some_of_mem_nodup k v l2 hnd2 (hp.mem_iff.mp (lookup_mem k l1 v h1))).symm
  | none =>
    have hk1 : k ∉ l1.map Prod.fst := no_key_of_lookup_none k l1 h1
    have hk2 : k ∉ l2.map Prod.fst := fun hk => hk1 ((hp.map Prod.fst).mem_iff.mpr hk)
    exact (lookup_none_of_no_key k l2
      (fun p hp2 hpk => hk2 (hpk ▸ List.mem_map_of_mem Prod.fst hp2))).symm

theorem sortByKey_lookup (cf : CustomField) (hnd : keysNodup cf) (k : String) :
    List.lookup k (sortByKey cf) = List.lookup k cf :=
  lookup_perm_nodup (sortByKey cf) cf (sortByKey_perm cf)
    (keysNodup_sortByKey cf hnd) k

theorem fixed_no_pre (f : ModifyIssueFields) :
    ∀ p ∈ fixedFieldMembers f, goHasPre "customfield_" p.1 = false := by
  intro p hp
  rcases fixedFieldMembers_keys f p hp with h | h | h | h | h <;> rw [h] <;> decide

theorem unmarshal_marshal (f : ModifyIssueFields)
    (hkeys : ∀ p ∈ f.customFields, goHasPre "customfield_" p.1 = true)
    (hnd : keysNodup f.customFields)
    (hfix : fixedFieldMembers f ≠ [] ∨ f.customFields = []) :
    ∃ flds, unmarshalIssueFields (marshalModifyIssueFields f) = Except.ok flds ∧
      flds.customFields = some (sortByKey f.customFields) := by
  have hM : marshalModifyIssueFields f =
      serJson (Json.obj (cfWireMembers f.customFields ++ fixedFieldMembers f)) := by
    by_cases hcf : f.customFields = []
    · rw [marshal_empty_cf f hcf, hcf]
      rfl
    · have hfm : fixedFieldMembers f ≠ [] := hfix.resolve_right hcf
      obtain ⟨f1, fs, hfs⟩ : ∃ f1 fs, fixedFieldMembers f = f1 :: fs := by
        cases h : fixedFieldMembers f with
        | nil => exact absurd h hfm
        | cons a l => exact ⟨a, l, rfl⟩
      obtain ⟨c1, cfs, hcs⟩ : ∃ c1 cfs, cfWireMembers f.customFields = c1 :: cfs := by
        cases h : cfWireMembers f.customFields with
        | nil =>
          have hlen := cfWireMembers_len f.customFields
          rw [h] at hlen
          cases hc2 : f.customFields with
          | nil => exact absurd hc2 hcf
          | cons a l => rw [hc2] at hlen; exact absurd hlen (by simp)
        | cons a l => exact ⟨a, l, rfl⟩
      rw [marshal_with_fixed f c1 cfs f1 fs hcs hcf hfs, hcs, hfs]
  have hWnd : keysNodup (cfWireMembers f.customFields ++ fixedFieldMembers f) :=
    keysNodup_wire f hkeys hnd
  have hparse : parseJson (marshalModifyIssueFields f) =
      some (Json.obj (cfWireMembers f.customFields ++ fixedFieldMembers f)) := by
    rw [hM]
    exact parseJson_serJson _
  obtain ⟨flds, hty⟩ := typed_decode_marshal f hkeys
  have hmap : mapOfJson (Json.obj (cfWireMembers f.customFields ++ fixedFieldMembers f)) =
      some (cfWireMembers f.customFields ++ fixedFieldMembers f) := by
    show some (dedupLast _) = _
    rw [dedupLast_eq_self _ hWnd]
  have hex : extractCustomFields (cfWireMembers f.customFields ++ fixedFieldMembers f) =
      sortByKey f.customFields := by
    rw [extractCustomFields_eq _ hWnd, specExtract_append,
      specExtract_no_pre (fixedFieldMembers f) (fixed_no_pre f), List.append_nil,
      cfWireMembers]
    exact specExtract_wrapped (sortByKey f.customFields)
      (fun p hp => hkeys p ((sortByKey_perm f.customFields).mem_iff.mp hp))
  refine ⟨⟨flds.project, flds.summary, flds.issueType, flds.fixVersions, flds.status,
    flds.created, flds.description, flds.comment, some (sortByKey f.customFields)⟩, ?_, rfl⟩
  simp only [unmarshalIssueFields, hparse, hty, hmap, hex]

/-! ## The inner value scan of an object custom field -/

theorem valueStrMember_true {p : String × Json} (h : valueStrMember p = true) :
    goHasPre "value" p.1 = true ∧ ∃ s, p.2 = Json.str s := by
  rw [valueStrMember] at h
  cases hg : goHasPre "value" p.1 with
  | false => rw [hg, Bool.false_and] at h; exact Bool.noConfusion h
  | true =>
    rw [hg, Bool.true_and] at h
    refine ⟨rfl, ?_⟩
    cases hp : p.2 with
    | str s => exact ⟨s, rfl⟩
    | null => rw [hp] at h; exact Bool.noConfusion h
    | bool b => rw [hp] at h; exact Bool.noConfusion h
    | num n => rw [hp] at h; exact Bool.noConfusion h
    | arr xs => rw [hp] at h; exact Bool.noConfusion h
    | obj ms => rw [hp] at h; exact Bool.noConfusion h

theorem specLast_nil : specLastValueMember [] = none := rfl

theorem specLast_cons (p : String × Json) (ps : List (String × Json)) :
    specLastValueMember (p :: ps) =
      match specLastValueMember ps with
      | some s => some s
      | none =>
        if valueStrMember p then
          match p.2 with
          | Json.str s => some s
          | _ => none
        else none := by
  rw [specLastValueMember, List.reverse_cons, List.find?_append]
  cases hf : List.find? valueStrMember ps.reverse with
  | some a =>
    obtain ⟨k, v⟩ := a
    obtain ⟨h1, s, hs⟩ := valueStrMember_true (List.find?_some hf)
    have hvs : v = Json.str s := hs
    subst hvs
    have hps : specLastValueMember ps = some s := by
      rw [specLastValueMember, hf]
    rw [hps]
    rfl
  | none =>
    have hps : specLastValueMember ps = none := by
      rw [specLastValueMember, hf]
    rw [hps]
    by_cases hv : valueStrMember p = true
    · obtain ⟨h1, s, hs⟩ := valueStrMember_true hv
      have hfp : List.find? valueStrMember [p] = some p :=
        List.find?_cons_of_pos _ hv
      obtain ⟨k, v⟩ := p
      have hvs : v = Json.str s := hs
      subst hvs
      rw [hfp]
      simp [hv]
    · have hv2 : valueStrMember p = false := Bool.eq_false_iff.mpr hv
      have hfp : List.find? valueStrMember [p] = none :=
        List.find?_cons_of_neg _ (by rw [hv2]; exact Bool.noConfusion)
      rw [hfp]
      simp [hv2]

theorem scanValueMembers_go : ∀ (l : List (String × Json)) (acc : Option String),
    l.foldl
      (fun acc p =>
        if goHasPre "value" p.1 then
          match p.2 with
          | Json.str s => some s
          | _ => acc
        else acc)
      acc =
      match specLastValueMember l with
      | some s => some s
      | none => acc := by
  intro l
  induction l with
  | nil => intro acc; rfl
  | cons p ps ih =>
    intro acc
    rw [List.foldl_cons, specLast_cons]
    rw [ih]
    by_cases hv : valueStrMember p = true
    · obtain ⟨h1, s, hs⟩ := valueStrMember_true hv
      cases hsp : specLastValueMember ps with
      | some t => rfl
      | none => simp [hv, h1, hs]
    · have hv2 : valueStrMember p = false := Bool.eq_false_iff.mpr hv
      cases hsp : specLastValueMember ps with
      | some t => rfl
      | none =>
        by_cases hpre : goHasPre "value" p.1 = true
        · cases hp2 : p.2 with
          | str s => exact absurd (by rw [valueStrMember, hpre, hp2]; rfl) hv
          | null => simp [hpre, hp2, hv2]
          | bool b => simp [hpre, hp2, hv2]
          | num n => simp [hpre, hp2, hv2]
          | arr xs => simp [hpre, hp2, hv2]
          | obj ms => simp [hpre, hp2, hv2]
        · have hpre2 : goHasPre "value" p.1 = false := Bool.eq_false_iff.mpr hpre
          simp [hpre2, hv2]

theorem scanValueMembers_eq (l : List (String × Json)) :
    scanValueMembers l = specLastValueMember l := by
  rw [scanValueMembers]
  have h1 := scanValueMembers_go l none
  have h2 : (match specLastValueMember l with
      | some s => some s
      | none => (none : Option String)) = specLastValueMember l := by
    cases specLastValueMember l <;> rfl
  exact h1.trans h2

/-! ## Helper facts for the claim theorems -/

theorem mapOfJson_of_typed (j : Json) (flds : IssueFields)
    (h : decodeIssueFieldsTyped j = some flds) : ∃ gm, mapOfJson j = some gm := by
  cases j with
  | null => exact ⟨[], rfl⟩
  | obj ms => exact ⟨dedupLast ms, rfl⟩
  | bool b => exact Option.noConfusion h
  | num n => exact Option.noConfusion h
  | str s => exact Option.noConfusion h
  | arr xs => exact Option.noConfusion h

theorem specLast_some_mem (iter : List (String × Json)) (s : String)
    (h : specLastValueMember iter = some s) :
    ∃ k, (k, Json.str s) ∈ iter ∧ goHasPre "value" k = true := by
  rw [specLastValueMember] at h
  cases hf : List.find? valueStrMember iter.reverse with
  | none =>
    rw [hf] at h
    exact Option.noConfusion h
  | some a =>
    obtain ⟨k, v⟩ := a
    obtain ⟨h1, s2, hs2⟩ := valueStrMember_true (List.find?_some hf)
    have hvs : v = Json.str s2 := hs2
    subst hvs
    rw [hf] at h
    have h2 : some s2 = some s := h
    have hs : s2 = s := Option.some.inj h2
    subst hs
    exact ⟨k, List.mem_reverse.mp (List.mem_of_find?_eq_some hf), h1⟩

theorem specLast_none_all (iter : List (String × Json))
    (h : specLastValueMember iter = none) :
    ∀ p ∈ iter, valueStrMember p = false := by
  intro p hp
  rw [specLastValueMember] at h
  cases hf : List.find? valueStrMember iter.reverse with
  | some a =>
    obtain ⟨k, v⟩ := a
    obtain ⟨h1, s, hs⟩ := valueStrMember_true (List.find?_some hf)
    have hvs : v = Json.str s := hs
    subst hvs
    rw [hf] at h
    have h2 : some s = (none : Option String) := h
    exact Option.noConfusion h2
  | none =>
    have hall := List.find?_eq_none.mp hf
    exact Bool.eq_false_iff.mpr (hall p (List.mem_reverse.mpr hp))

/-! ## The claims -/

/-- C1: the round trip MarshalJSON then UnmarshalJSON restores the Custom
Fields mapping.  The original claim fails when every fixed-schema field is
empty (the splice emits invalid JSON); under the amended hypotheses - keys
carrying the customfield_ prefix, pairwise distinct keys, and at least one
fixed field present unless the mapping is empty - decoding succeeds and
returns the same mapping. -/
theorem claim_C1 (f : ModifyIssueFields)
    (hkeys : ∀ p ∈ f.customFields, goHasPre "customfield_" p.1 = true)
    (hnd : keysNodup f.customFields)
    (hfix : fixedFieldMembers f ≠ [] ∨ f.customFields = []) :
    ∃ flds, unmarshalIssueFields (marshalModifyIssueFields f) = Except.ok flds ∧
      ∃ cf, flds.customFields = some cf ∧
        ∀ k, List.lookup k cf = List.lookup k f.customFields := by
  obtain ⟨flds, hok, hcf⟩ := unmarshal_marshal f hkeys hnd hfix
  exact ⟨flds, hok, sortByKey f.customFields, hcf,
    fun k => sortByKey_lookup f.customFields hnd k⟩

/-- Witness for C1 at a two-entry mapping with a non-empty summary. -/
theorem claim_C1_witness :
    ∃ flds, unmarshalIssueFields (marshalModifyIssueFields
        ⟨none, "sum", none, [], "", [("customfield_2", "b"), ("customfield_1", "a")]⟩) =
        Except.ok flds ∧
      ∃ cf, flds.customFields = some cf ∧
        ∀ k, List.lookup k cf =
          List.lookup k [("customfield_2", "b"), ("customfield_1", "a")] :=
  claim_C1 ⟨none, "sum", none, [], "", [("customfield_2", "b"), ("customfield_1", "a")]⟩
    (by decide) (by rw [keysNodup]; decide) (Or.inl (fun h => List.noConfusion h))

/-- Counterexample to C1 as stated: with every fixed field empty, marshal
followed by unmarshal fails on the trailing comma instead of returning the
mapping. -/
theorem claim_C1_counterexample :
    unmarshalIssueFields (marshalModifyIssueFields
      ⟨none, "", none, [], "", [("customfield_10070", "x")]⟩) =
      Except.error DecodeErr.syntaxErr := rfl

/-- C2: the spliced bytes of MarshalJSON are valid JSON.  They are not
when the fixed-field fragment is the empty object: the splice keeps the
comma before the closing brace and no JSON parser accepts the result. -/
theorem claim_C2 :
    marshalModifyIssueFields ⟨none, "", none, [], "", [("customfield_10070", "x")]⟩ =
      "\x7b\"customfield_10070\":\x7b\"value\":\"x\"\x7d,\x7d".data ∧
    parseJson "\x7b\"customfield_10070\":\x7b\"value\":\"x\"\x7d,\x7d".data = none :=
  ⟨rfl, rfl⟩

/-- C3: the status switch of request: below 400 the body is returned, the
five mapped codes give their dedicated errors, any other code of at least
400 gives the generic failure carrying status and body. -/
theorem claim_C3 (status : Nat) (body : String) :
    (status < 400 → classifyResponse status body = Except.ok body) ∧
    classifyResponse 401 body = Except.error JiraError.unauthorized ∧
    classifyResponse 404 body = Except.error JiraError.notFound ∧
    classifyResponse 405 body = Except.error JiraError.methodNotAllowed ∧
    classifyResponse 415 body = Except.error JiraError.unsupportedMediaType ∧
    classifyResponse 502 body = Except.error JiraError.badGateway ∧
    (400 ≤ status → status ≠ 401 → status ≠ 404 → status ≠ 405 → status ≠ 415 →
      status ≠ 502 →
      classifyResponse status body = Except.error (JiraError.requestFailed status body)) := by
  refine ⟨fun h => ?_, rfl, rfl, rfl, rfl, rfl, fun h1 h2 h3 h4 h5 h6 => ?_⟩
  · rw [classifyResponse, if_neg (by omega), if_neg (by omega), if_neg (by omega),
      if_neg (by omega), if_neg (by omega), if_neg (by omega)]
  · rw [classifyResponse, if_neg h2, if_neg h3, if_neg h4, if_neg h5, if_neg h6, if_pos h1]

/-- Witness for C3 at status 200 and at the unmapped status 418. -/
theorem claim_C3_witness :
    classifyResponse 200 "ok" = Except.ok "ok" ∧
    classifyResponse 418 "teapot" = Except.error (JiraError.requestFailed 418 "teapot") :=
  ⟨(claim_C3 200 "ok").1 (by decide),
   (claim_C3 418 "teapot").2.2.2.2.2.2 (by decide) (by decide) (by decide) (by decide)
     (by decide) (by decide)⟩

/-- C4: with an empty Custom Fields mapping the output is exactly the
fixed-field object and the wrapper is absent; the original sentence that
the output then contains no key with an empty nested object value is
wrong (a non-nil all-empty Project pointer yields project with value
empty object), so the amended statement keeps only the wrapper absence. -/
theorem claim_C4 (f : ModifyIssueFields) (h : f.customFields = []) :
    marshalModifyIssueFields f = serJson (Json.obj (fixedFieldMembers f)) ∧
    ∀ p ∈ fixedFieldMembers f, goHasPre "customfield_" p.1 = false :=
  ⟨marshal_empty_cf f h, fixed_no_pre f⟩

/-- Witness for C4 at a record with only a summary. -/
theorem claim_C4_witness :
    marshalModifyIssueFields ⟨none, "s", none, [], "", []⟩ =
      serJson (Json.obj (fixedFieldMembers ⟨none, "s", none, [], "", []⟩)) ∧
    ∀ p ∈ fixedFieldMembers ⟨none, "s", none, [], "", []⟩,
      goHasPre "customfield_" p.1 = false :=
  claim_C4 ⟨none, "s", none, [], "", []⟩ rfl

/-- Counterexample to the second half of C4: an all-empty but non-nil
Project pointer makes the encoder emit project with an empty nested
object value even though Custom Fields is empty. -/
theorem claim_C4_counterexample :
    marshalModifyIssueFields ⟨some ⟨"", "", "", ""⟩, "", none, [], "", []⟩ =
      "\x7b\"project\":\x7b\x7d\x7d".data ∧
    parseJson "\x7b\"project\":\x7b\x7d\x7d".data =
      some (Json.obj [("project", Json.obj [])]) :=
  ⟨rfl, rfl⟩

/-- C5: whenever the marshalled bytes parse as a JSON object, every custom
field appears in that one flat object as key with the wrapper value, and
every fixed-schema member appears beside them. -/
theorem claim_C5 (f : ModifyIssueFields) (ms : List (String × Json))
    (h : parseJson (marshalModifyIssueFields f) = some (Json.obj ms)) :
    (∀ p ∈ f.customFields, (p.1, Json.obj [("value", Json.str p.2)]) ∈ ms) ∧
    (∀ q ∈ fixedFieldMembers f, q ∈ ms) := by
  by_cases hcf : f.customFields = []
  · rw [marshal_empty_cf f hcf, parseJson_serJson] at h
    have hms : fixedFieldMembers f = ms := by
      have h2 : Json.obj (fixedFieldMembers f) = Json.obj ms := Option.some.inj h
      injection h2
    constructor
    · intro p hp
      rw [hcf] at hp
      exact absurd hp (List.not_mem_nil p)
    · intro q hq
      exact hms ▸ hq
  · by_cases hfm : fixedFieldMembers f = []
    · rw [parse_marshal_bad f hcf hfm] at h
      exact Option.noConfusion h
    · obtain ⟨f1, fs, hfs⟩ : ∃ f1 fs, fixedFieldMembers f = f1 :: fs := by
        cases hx : fixedFieldMembers f with
        | nil => exact absurd hx hfm
        | cons a l => exact ⟨a, l, rfl⟩
      obtain ⟨c1, cfs, hcs⟩ : ∃ c1 cfs, cfWireMembers f.customFields = c1 :: cfs := by
        cases hx : cfWireMembers f.customFields with
        | nil =>
          have hlen := cfWireMembers_len f.customFields
          rw [hx] at hlen
          cases hc2 : f.customFields with
          | nil => exact absurd hc2 hcf
          | cons a l => rw [hc2] at hlen; exact absurd hlen (by simp)
        | cons a l => exact ⟨a, l, rfl⟩
      rw [marshal_with_fixed f c1 cfs f1 fs hcs hcf hfs, parseJson_serJson] at h
      have hms : (c1 :: cfs) ++ f1 :: fs = ms := by
        have h2 : Json.obj ((c1 :: cfs) ++ f1 :: fs) = Json.obj ms := Option.some.inj h
        injection h2
      constructor
      · intro p hp
        have hinw : (p.1, Json.obj [("value", Json.str p.2)]) ∈
            cfWireMembers f.customFields := by
          rw [cfWireMembers]
          exact List.mem_map_of_mem _ ((sortByKey_perm f.customFields).mem_iff.mpr hp)
        rw [hcs] at hinw
        exact hms ▸ List.mem_append_left _ hinw
      · intro q hq
        rw [hfs] at hq
        exact hms ▸ List.mem_append_right _ hq

/-- Witness for C5 at one custom field and a summary. -/
theorem claim_C5_witness :
    (∀ p ∈ ([("customfield_1", "x")] : CustomField),
      (p.1, Json.obj [("value", Json.str p.2)]) ∈
        [("customfield_1", Json.obj [("value", Json.str "x")]), ("summary", Json.str "s")]) ∧
    (∀ q ∈ fixedFieldMembers ⟨none, "s", none, [], "", [("customfield_1", "x")]⟩,
      q ∈ [("customfield_1", Json.obj [("value", Json.str "x")]), ("summary", Json.str "s")]) :=
  claim_C5 ⟨none, "s", none, [], "", [("customfield_1", "x")]⟩
    [("customfield_1", Json.obj [("value", Json.str "x")]), ("summary", Json.str "s")] rfl

/-- C6: the shape dispatch of the custom-field extraction.  The inner
loop ranges over a Go map, so the sequence in which it sees the members
is unspecified; the first conjunct quantifies over that sequence: for
every iteration order the loop keeps the LAST string-typed value-prefixed
member of that order (never the first, as the original sentence says),
hence whatever winner the run produces is the string of some such member,
and when no member matches nothing is stored.  String, null and the
remaining shapes are order-free and behave as stated. -/
theorem claim_C6 :
    (∀ iter : List (String × Json),
      scanValueMembers iter = specLastValueMember iter ∧
      (∀ s, scanValueMembers iter = some s →
        ∃ k, (k, Json.str s) ∈ iter ∧ goHasPre "value" k = true) ∧
      (scanValueMembers iter = none → ∀ p ∈ iter, valueStrMember p = false)) ∧
    (∀ s, customValueOf (Json.str s) = some s) ∧
    customValueOf Json.null = some "" ∧
    (∀ n, customValueOf (Json.num n) = none) ∧
    (∀ b, customValueOf (Json.bool b) = none) ∧
    (∀ xs, customValueOf (Json.arr xs) = none) :=
  ⟨fun iter =>
    ⟨scanValueMembers_eq iter,
     fun s hs => specLast_some_mem iter s ((scanValueMembers_eq iter).symm.trans hs),
     fun hn => specLast_none_all iter ((scanValueMembers_eq iter).symm.trans hn)⟩,
   fun _ => rfl, rfl, fun _ => rfl, fun _ => rfl, fun _ => rfl⟩

/-- Counterexample to the first-member reading of C6: the two-member map
value, valuez admits two iteration orders, and in each of them the loop
keeps the opposite of the first matching member of that same order - no
iteration order realizes the first-found rule of the spec sentence. -/
theorem claim_C6_counterexample :
    scanValueMembers [("value", Json.str "a"), ("valuez", Json.str "b")] = some "b" ∧
    specFirstValueMember [("value", Json.str "a"), ("valuez", Json.str "b")] = some "a" ∧
    scanValueMembers [("valuez", Json.str "b"), ("value", Json.str "a")] = some "a" ∧
    specFirstValueMember [("valuez", Json.str "b"), ("value", Json.str "a")] = some "b" :=
  ⟨rfl, rfl, rfl, rfl⟩

/-- C7: decode failure is not limited to malformed JSON - a well-formed
object whose member cannot fit the typed schema (summary holding 42) also
fails.  Amended: for a document within goDecodeFaithful - keys pairwise
distinct and resolved by exact match wherever json.Unmarshal matches a
struct, so the case-insensitive fallback and the first-error-wins
duplicate handling of encoding/json cannot diverge from the model - the
decoder succeeds whenever the document parses and the typed pass accepts
it; unexpected keys and unsupported custom-field shapes are dropped
silently and Custom Fields is always initialized.  The last hypothesis
scopes the claim to the program and is not needed by the proof. -/
theorem claim_C7 (l : List Char) (j : Json) (flds : IssueFields)
    (hp : parseJson l = some j) (ht : decodeIssueFieldsTyped j = some flds)
    (_hf : goDecodeFaithful j = true) :
    ∃ out, unmarshalIssueFields l = Except.ok out ∧
      ∃ cf, out.customFields = some cf := by
  obtain ⟨gm, hgm⟩ := mapOfJson_of_typed j flds ht
  refine ⟨⟨flds.project, flds.summary, flds.issueType, flds.fixVersions, flds.status,
    flds.created, flds.description, flds.comment, some (extractCustomFields gm)⟩,
    ?_, extractCustomFields gm, rfl⟩
  simp only [unmarshalIssueFields, hp, ht, hgm]

/-- Witness for C7 on an object with an unexpected key and an unsupported
custom-field shape: decode succeeds and Custom Fields is initialized. -/
theorem claim_C7_witness :
    ∃ out, unmarshalIssueFields
        "\x7b\"bogus\":1,\"customfield_7\":\x7b\"wrong\":true\x7d\x7d".data =
        Except.ok out ∧ ∃ cf, out.customFields = some cf :=
  claim_C7 "\x7b\"bogus\":1,\"customfield_7\":\x7b\"wrong\":true\x7d\x7d".data
    (Json.obj [("bogus", Json.num 1), ("customfield_7", Json.obj [("wrong", Json.bool true)])])
    ⟨none, "", none, [], zeroStatus, "", "", zeroCommentField, none⟩ rfl rfl rfl

/-- Counterexample to C7 as stated: a syntactically valid JSON object
fails the decode with a type error. -/
theorem claim_C7_counterexample :
    unmarshalIssueFields "\x7b\"summary\":42\x7d".data = Except.error DecodeErr.typeErr ∧
    parseJson "\x7b\"summary\":42\x7d".data = some (Json.obj [("summary", Json.num 42)]) :=
  ⟨rfl, rfl⟩

/-- C8: the empty-key validation error fires before any transport call;
with a non-empty key the original claim promised a PUT unconditionally,
but the request encoder can fail on the marshaller's invalid splice, so
the amended statement adds the encoding-success hypothesis: then exactly
the single PUT to the issue path is made and the response body is
discarded on success. -/
theorem claim_C8 (transport : HttpCall → Except JiraError String)
    (req : RequestUpdateIssue) :
    (req.key = "" →
      updateIssue transport req = Except.error UpdateIssueError.validationError ∧
      updateIssueCalls req = []) ∧
    (req.key ≠ "" → ∀ body, encodeRequestUpdateIssue req = some body →
      updateIssueCalls req = [⟨"PUT", "/issue/" ++ req.key, some body⟩] ∧
      (∀ s, transport ⟨"PUT", "/issue/" ++ req.key, some body⟩ = Except.ok s →
        updateIssue transport req = Except.ok ()) ∧
      (∀ e, transport ⟨"PUT", "/issue/" ++ req.key, some body⟩ = Except.error e →
        updateIssue transport req = Except.error (UpdateIssueError.httpError e))) := by
  refine ⟨fun hk => ⟨?_, ?_⟩, fun hk body hb => ⟨?_, fun s hs => ?_, fun e he => ?_⟩⟩
  · rw [updateIssue, if_pos hk]
  · rw [updateIssueCalls, if_pos hk]
  · rw [updateIssueCalls, if_neg hk, hb]
  · simp only [updateIssue, if_neg hk, hb, hs]
  · simp only [updateIssue, if_neg hk, hb, he]

/-- Witness for C8: the empty key is rejected with no call; the key KEY-1
with empty fields encodes and performs the single PUT, succeeding against
a transport that accepts it. -/
theorem claim_C8_witness :
    updateIssue (fun _ => Except.ok "") ⟨"", ⟨none, "", none, [], "", []⟩⟩ =
      Except.error UpdateIssueError.validationError ∧
    updateIssueCalls ⟨"KEY-1", ⟨none, "", none, [], "", []⟩⟩ =
      [⟨"PUT", "/issue/KEY-1", some "\x7b\"key\":\"KEY-1\",\"fields\":\x7b\x7d\x7d\n".data⟩] ∧
    updateIssue (fun _ => Except.ok "") ⟨"KEY-1", ⟨none, "", none, [], "", []⟩⟩ =
      Except.ok () :=
  ⟨((claim_C8 (fun _ => Except.ok "") ⟨"", ⟨none, "", none, [], "", []⟩⟩).1 rfl).1,
   ((claim_C8 (fun _ => Except.ok "") ⟨"KEY-1", ⟨none, "", none, [], "", []⟩⟩).2
     (by decide) "\x7b\"key\":\"KEY-1\",\"fields\":\x7b\x7d\x7d\n".data rfl).1,
   (((claim_C8 (fun _ => Except.ok "") ⟨"KEY-1", ⟨none, "", none, [], "", []⟩⟩).2
     (by decide) "\x7b\"key\":\"KEY-1\",\"fields\":\x7b\x7d\x7d\n".data rfl).2.1 "" rfl)⟩

/-- Counterexample to the unconditional PUT of C8: a non-empty key whose
fields carry only a custom field makes the encoder reject the
marshaller's output, so no call is made and UpdateIssue fails. -/
theorem claim_C8_counterexample :
    updateIssue (fun _ => Except.ok "")
        ⟨"KEY-1", ⟨none, "", none, [], "", [("customfield_10070", "x")]⟩⟩ =
      Except.error UpdateIssueError.encodeError ∧
    updateIssueCalls ⟨"KEY-1", ⟨none, "", none, [], "", [("customfield_10070", "x")]⟩⟩ = [] :=
  ⟨rfl, rfl⟩

/-- C9: GetIssues builds the jql query and the fields parameter, the
default list when the release carries no override and the override
otherwise; for release 1.2.0 in project ABC the query is the expected one
with the default field list. -/
theorem claim_C9 :
    (∀ (project : String) (fv : FixVersion),
      getIssuesParams project fv =
        [("jql", "project = " ++ project ++ " AND fixVersion = \"" ++ fv.name ++ "\""),
         ("fields", if fv.fields = "" then defaultIssuesFields else fv.fields)]) ∧
    getIssuesJql "ABC" "1.2.0" = "project = ABC AND fixVersion = \"1.2.0\"" ∧
    getIssuesParams "ABC" ⟨false, "", "1.2.0", false, 0, "", false, "", "", "", "", ""⟩ =
      [("jql", "project = ABC AND fixVersion = \"1.2.0\""),
       ("fields", "id,key,self,summary,issuetype,status,description,created,comment")] :=
  ⟨fun _ _ => rfl, rfl, rfl⟩

/-- C10: the expand parameter of GetIssue.  The original claim keys its
presence on the list being non-empty; the code keys it on the Go slice
being non-nil, so a non-nil empty slice still appends expand with an
empty value.  Amended: the parameter appears exactly when the slice is
non-nil, carrying the escaped comma-join of the names. -/
theorem claim_C10 (id : String) :
    (getIssueRelURL id none).data = "/issue/".data ++ id.data ++ "?".data ∧
    ∀ xs : List String, (getIssueRelURL id (some xs)).data =
      "/issue/".data ++ id.data ++ "?expand=".data ++
        queryEscapeChars (joinComma xs).data := by
  constructor
  · simp [getIssueRelURL, getIssueParams, urlValuesEncode, sortByKey, joinAmp,
      String.data_append]
  · intro xs
    simp [getIssueRelURL, getIssueParams, urlValuesEncode, sortByKey, insertByKey,
      joinAmp, queryEscapeChars, utf8Bytes, escapeByteQuery, isUnreservedByte,
      String.data_append]

/-- Counterexample to C10 as stated: a non-nil empty expansion list still
appends the expand parameter. -/
theorem claim_C10_counterexample :
    getIssueRelURL "KEY-1" (some []) = "/issue/KEY-1?expand=" := rfl
